import Mathlib

/-!
# GOCS: the Genetic Oulipian Constraint System

A shallow embedding of the text-mutation engine of `gocs-implementation.js`
(class `GOCSMutator`) and of the population switch of `gocs-extensions.js`
(class `MultilingualGOCS`), followed by theorems about them.

Conventions of the embedding.

* A JavaScript string is a `List Char`, one element per UTF-16 code unit;
  `word.length` is `List.length`, `word[i]` is the element at index `i`.
* `Math.random()` is an explicit random source `Rand`: an infinite sequence of
  draws, each the exact value of a double in `[0, 1)`.  A function that calls
  `Math.random()` takes the source and returns the source that is left.
* The product `Math.random() * n` is rounded to the nearest double, as IEEE 754
  arithmetic does, before `Math.floor` is taken.
* Probabilities are exact decimals, held in `ℚ`.
* `undefined` is `none`; appending `undefined` to a string appends the text
  `undefined`, as JavaScript does.
-/

namespace GOCS

/-! ## Random source -/

/-- One result of `Math.random()`: the exact value of a double in `[0, 1)`.
The largest double below 1 is `1 - 2^(-53)`, so every such value is at most
that number. -/
structure Draw where
  val : ℚ
  nonneg : 0 ≤ val
  le_max : val ≤ 1 - 1 / 2 ^ 53

/-- The sequence of results that successive calls of `Math.random()` return. -/
abbrev Rand := Nat → Draw

/-- The result of the next call of `Math.random()`. -/
def Rand.head (g : Rand) : Draw := g 0

/-- The random source after one call of `Math.random()`. -/
def Rand.tail (g : Rand) : Rand := fun n => g (n + 1)

/-- The random source all of whose draws are `d`. -/
def Rand.const (d : Draw) : Rand := fun _ => d

/-- The random source whose next draw is `d` and that goes on as `g`. -/
def Rand.cons (d : Draw) (g : Rand) : Rand
  | 0 => d
  | n + 1 => g n

/-- The draw `0.9`. -/
def draw09 : Draw := ⟨9 / 10, by norm_num, by norm_num⟩

/-- The draw `0.1`. -/
def draw01 : Draw := ⟨1 / 10, by norm_num, by norm_num⟩

/-- The draw `0`. -/
def draw0 : Draw := ⟨0, by norm_num, by norm_num⟩

/-- The double `0.7`, that is `6305039478318694 / 2^53`, a little below the
decimal number 0.7. -/
def drawDouble07 : Draw := ⟨6305039478318694 / 2 ^ 53, by norm_num, by norm_num⟩

/-- Rounding to the nearest integer, a tie going to the even integer. -/
def roundHalfEven (y : ℚ) : ℤ :=
  if y - ⌊y⌋ < 1 / 2 then ⌊y⌋
  else if 1 / 2 < y - ⌊y⌋ then ⌊y⌋ + 1
  else if ⌊y⌋ % 2 = 0 then ⌊y⌋ else ⌊y⌋ + 1

/-- The distance between neighbouring doubles at a non-negative number `x`:
`2^(e - 52)` for `2^e ≤ x < 2^(e+1)`, and `2^(-1074)` in the subnormal range. -/
def doubleSpacing (x : ℚ) : ℚ := (2 : ℚ) ^ (max (Int.log 2 x) (-1022) - 52)

/-- The double nearest to a non-negative exact number below `2^1024` (IEEE 754
rounding to nearest, ties to even): the result of a floating-point operation
whose exact result is `x`. -/
def roundDouble (x : ℚ) : ℚ := doubleSpacing x * (roundHalfEven (x / doubleSpacing x) : ℚ)

/-- The index `Math.floor(Math.random() * n)`: the floor of the double that
the product is rounded to (`n` is a length, an integer that is a double). -/
def Draw.index (d : Draw) (n : Nat) : Nat := ⌊roundDouble (d.val * (n : ℚ))⌋₊

/-! ## Nucleotide model (constructor of `GOCSMutator`) -/

/-- The four nucleotide symbols, the keys of `nucleotideMap`. -/
inductive Nucleotide
  | A | G | C | T
  deriving DecidableEq, Repr

open Nucleotide

/-- The table `this.nucleotideMap`: the letters of each nucleotide. -/
def nucleotideMap : Nucleotide → List Char
  | A => ['e', 'a']
  | G => ['r', 'n', 's']
  | C => ['k', 't']
  | T => ['o', 'i']

/-- The keys of `nucleotideMap` in the order of `Object.entries`. -/
def nucleotideKeys : List Nucleotide := [A, G, C, T]

/-- The table `this.letterToNucleotide`, built as the constructor builds it:
for every entry of `nucleotideMap` and every letter of the entry, the letter
is assigned the nucleotide (a later assignment overwrites an earlier one). -/
def letterToNucleotide : Char → Option Nucleotide :=
  nucleotideKeys.foldl
    (fun table nucleotide =>
      (nucleotideMap nucleotide).foldl
        (fun t letter => Function.update t letter (some nucleotide)) table)
    (fun _ => none)

/-- One row of a transition matrix: the entries `target: probability` in the
order in which the object literal lists them (the order of `Object.entries`). -/
abbrev Row := List (Nucleotide × ℚ)

/-- A transition matrix: an object with the four rows `A`, `G`, `C`, `T`. -/
structure TransitionMatrix where
  rowA : Row
  rowG : Row
  rowC : Row
  rowT : Row
  deriving DecidableEq

/-- The row `matrix[nucleotide]`. -/
def TransitionMatrix.row (M : TransitionMatrix) : Nucleotide → Row
  | A => M.rowA
  | G => M.rowG
  | C => M.rowC
  | T => M.rowT

/-- The entry `row[target]` of a row (`undefined` when the key is absent). -/
def Row.prob : Row → Nucleotide → Option ℚ
  | [], _ => none
  | (t, p) :: rest, target => if t = target then some p else Row.prob rest target

/-- The matrix `this.transitionMatrix` that the constructor of `GOCSMutator`
installs. -/
def defaultMatrix : TransitionMatrix where
  rowA := [(G, 0.4), (C, 0.1), (T, 0.1), (A, 0.4)]
  rowG := [(A, 0.4), (C, 0.1), (T, 0.1), (G, 0.4)]
  rowC := [(T, 0.4), (A, 0.1), (G, 0.1), (C, 0.4)]
  rowT := [(C, 0.4), (A, 0.1), (G, 0.1), (T, 0.4)]

/-- The list `this.haplotypeList`. -/
def haplotypeList : List (List Char) :=
  ["the quick brown fox".toList, "once upon a time".toList,
   "in the beginning".toList, "by the shore".toList]

/-! ## Strings -/

/-- Lower-casing of one code unit, `String.prototype.toLowerCase`: the ASCII
capitals and the Kelvin sign U+212A are the only code units whose lower-case
form is an ASCII letter.  Every other code unit has a lower-case form outside
ASCII and is kept as it is here: the program only ever compares lower-cased
text with ASCII letters and ASCII phrases. -/
def toLowerCase (c : Char) : Char :=
  if c = Char.ofNat 0x212A then 'k' else c.toLower

/-- The method `split(' ')`: the pieces between single spaces. -/
def splitSpace : List Char → List (List Char)
  | [] => [[]]
  | c :: cs =>
    if c = ' ' then [] :: splitSpace cs
    else
      match splitSpace cs with
      | [] => [[c]]
      | w :: ws => (c :: w) :: ws

/-- The method `join(' ')`. -/
def joinSpace : List (List Char) → List Char
  | [] => []
  | [w] => w
  | w :: w2 :: ws => w ++ ' ' :: joinSpace (w2 :: ws)

/-- The text that string concatenation appends for a value that is a
one-letter string or `undefined`. -/
def jsToString : Option Char → List Char
  | some c => [c]
  | none => "undefined".toList

/-! ## Transition model -/

/-- The loop of `getTransitionTarget`: the first target whose cumulative
probability reaches `rand`, or `none` when the loop ends without a `return`. -/
def selectTarget : Row → ℚ → ℚ → Option Nucleotide
  | [], _, _ => none
  | (target, prob) :: rest, rand, cumulativeProb =>
    if rand ≤ cumulativeProb + prob then some target
    else selectTarget rest rand (cumulativeProb + prob)

/-- The method `getTransitionTarget(nucleotide)`; the last line
`return nucleotide` is the `getD`. -/
def getTransitionTarget (M : TransitionMatrix) (nucleotide : Nucleotide) (g : Rand) :
    Nucleotide × Rand :=
  ((selectTarget (M.row nucleotide) g.head.val 0).getD nucleotide, g.tail)

/-- The method `getLetterFromNucleotide(nucleotide)`:
`letters[Math.floor(Math.random() * letters.length)]`. -/
def getLetterFromNucleotide (nucleotide : Nucleotide) (g : Rand) : Option Char × Rand :=
  let letters := nucleotideMap nucleotide
  (letters.get? (g.head.index letters.length), g.tail)

/-! ## Word mutator -/

/-- The loop of `mutateWord` from the current character on: `mutationCount` is
the number of substitutions made so far, the result is the text appended to
`mutatedWord` from here on. -/
def mutateWordLoop (M : TransitionMatrix) (maxMutations : Nat) :
    List Char → Nat → Rand → List Char × Rand
  | [], _, g => ([], g)
  | c :: rest, mutationCount, g =>
    match letterToNucleotide (toLowerCase c) with
    | some nucleotide =>
      if mutationCount < maxMutations then
        let t := getTransitionTarget M nucleotide g
        if t.1 ≠ nucleotide then
          let l := getLetterFromNucleotide t.1 t.2
          let r := mutateWordLoop M maxMutations rest (mutationCount + 1) l.2
          (jsToString l.1 ++ r.1, r.2)
        else
          let r := mutateWordLoop M maxMutations rest mutationCount t.2
          (c :: r.1, r.2)
      else
        let r := mutateWordLoop M maxMutations rest mutationCount g
        (c :: r.1, r.2)
    | none =>
      let r := mutateWordLoop M maxMutations rest mutationCount g
      (c :: r.1, r.2)

/-- The method `mutateWord(word, isHighMutationZone)`. -/
def mutateWord (M : TransitionMatrix) (word : List Char) (isHighMutationZone : Bool)
    (g : Rand) : List Char × Rand :=
  mutateWordLoop M (if isHighMutationZone then 2 else 1) word 0 g

/-- The element `['A', 'G', 'C', 'T'][i]`; the index of a draw is at most 3. -/
def nucleotideAt : Nat → Nucleotide
  | 0 => A
  | 1 => G
  | 2 => C
  | _ => T

/-- The method `applyIndel(word, position, type)`. -/
def applyIndel (word : List Char) (_position : Nat) (type : String) (g : Rand) :
    List Char × Rand :=
  if type = "deletion" ∧ word.length > 2 then
    let deletePos := g.head.index word.length
    (word.take deletePos ++ word.drop (deletePos + 1), g.tail)
  else if type = "insertion" then
    let insertPos := g.head.index (word.length + 1)
    let randomNucleotide := nucleotideAt (g.tail.head.index 4)
    let l := getLetterFromNucleotide randomNucleotide g.tail.tail
    (word.take insertPos ++ jsToString l.1 ++ word.drop insertPos, l.2)
  else (word, g)

/-! ## Sentence mutator -/

/-- The loop of `mutateHaplotype`: `map(word => this.mutateWord(word, true))`. -/
def mutateWords (M : TransitionMatrix) : List (List Char) → Rand → List (List Char) × Rand
  | [], g => ([], g)
  | w :: ws, g =>
    let m := mutateWord M w true g
    let r := mutateWords M ws m.2
    (m.1 :: r.1, r.2)

/-- The method `mutateHaplotype(haplotype)`. -/
def mutateHaplotype (M : TransitionMatrix) (haplotype : List Char) (g : Rand) :
    List Char × Rand :=
  let r := mutateWords M (splitSpace haplotype) g
  (joinSpace r.1, r.2)

/-- The local variables of `mutateSentence` that the loop updates. -/
structure SentenceState where
  mutatedWords : List (List Char)
  silentMutation : Bool
  inHaplotype : Bool
  currentHaplotype : List Char

/-- The `for` loop of `mutateSentence` from the word of index `i` on. -/
def mutateSentenceLoop (M : TransitionMatrix) :
    List (List Char) → Nat → SentenceState → Rand → SentenceState × Rand
  | [], _, st, g => (st, g)
  | word :: rest, i, st, g =>
    let currentHaplotype :=
      if st.inHaplotype then st.currentHaplotype ++ ' ' :: word else st.currentHaplotype
    if st.inHaplotype ∧ haplotypeList.any (fun h => h = currentHaplotype.map toLowerCase) then
      let h := mutateHaplotype M currentHaplotype g
      mutateSentenceLoop M rest (i + 1)
        { mutatedWords := st.mutatedWords ++ [h.1], silentMutation := st.silentMutation,
          inHaplotype := false, currentHaplotype := [] } h.2
    else
      let potentialHaplotype :=
        haplotypeList.find? (fun h => (word.map toLowerCase).isPrefixOf (h.map toLowerCase))
      if potentialHaplotype.isSome ∧ ¬ st.inHaplotype then
        mutateSentenceLoop M rest (i + 1)
          { mutatedWords := st.mutatedWords, silentMutation := st.silentMutation,
            inHaplotype := true, currentHaplotype := word } g
      else
        let isHighMutationZone := decide ((i + 1) % 3 = 0)
        let m := mutateWord M word isHighMutationZone g
        let d := if (i + 1) % 5 = 0 then applyIndel m.1 i "deletion" m.2 else m
        let n := if (i + 1) % 4 = 0 then applyIndel d.1 i "insertion" d.2 else d
        let silentMutation := if n.2.head.val < 0.05 then true else st.silentMutation
        mutateSentenceLoop M rest (i + 1)
          { mutatedWords := st.mutatedWords ++ [n.1], silentMutation := silentMutation,
            inHaplotype := st.inHaplotype, currentHaplotype := currentHaplotype } n.2.tail

/-- The exchange `[ws[pos], ws[pos+1]] = [ws[pos+1], ws[pos]]`, for a position
with `pos + 1` inside the list (which the position of a draw always is). -/
def swapAdjacent : List (List Char) → Nat → List (List Char)
  | a :: b :: rest, 0 => b :: a :: rest
  | a :: rest, pos + 1 => a :: swapAdjacent rest pos
  | ws, _ => ws

/-- The method `mutateSentence(sentence)`. -/
def mutateSentence (M : TransitionMatrix) (sentence : List Char) (g : Rand) :
    List Char × Rand :=
  let words := splitSpace sentence
  let r := mutateSentenceLoop M words 0
    { mutatedWords := [], silentMutation := false, inHaplotype := false,
      currentHaplotype := [] } g
  let mutatedWords := r.1.mutatedWords
  if r.1.silentMutation ∧ mutatedWords.length > 2 then
    let pos := r.2.head.index (mutatedWords.length - 1)
    (joinSpace (swapAdjacent mutatedWords pos), r.2.tail)
  else (joinSpace mutatedWords, r.2)

/-! ## Coherence filter -/

/-- The counter `diffCount` at the end of the loop of `calculateDifference`:
the number of indices below the longer length at which one word has no
character or the characters differ. -/
def diffCount : List Char → List Char → Nat
  | [], w2 => w2.length
  | w1, [] => w1.length
  | c1 :: w1, c2 :: w2 => (if c1 ≠ c2 then 1 else 0) + diffCount w1 w2

/-- The method `calculateDifference(word1, word2)`: the quotient
`diffCount / len`, which is `NaN` (here `none`) when both words are empty. -/
def calculateDifference (word1 word2 : List Char) : Option ℚ :=
  let len := max word1.length word2.length
  if len = 0 then none else some ((diffCount word1 word2 : ℚ) / (len : ℚ))

/-- The test `x > 0.5` on a result of `calculateDifference`; it is false for
`NaN`.  (The quotient of two string lengths exceeds one half as a floating
point number exactly when it does as a rational number.) -/
def exceedsHalf : Option ℚ → Bool
  | some x => decide (x > 0.5)
  | none => false

/-- The character `word[0]` as a string (`undefined` for the empty word). -/
def firstChar (word : List Char) : Option Char := word.head?

/-- The loop of `makeCoherent` over the indices below both word counts. -/
def coherentWords : List (List Char) → List (List Char) → List (List Char)
  | [], _ => []
  | mutatedWords, [] => mutatedWords
  | mutWord :: ms, origWord :: os =>
    (if exceedsHalf (calculateDifference mutWord origWord) then
        jsToString (firstChar origWord) ++ mutWord.drop 1
      else mutWord) :: coherentWords ms os

/-- The method `makeCoherent(mutatedText, originalText)`. -/
def makeCoherent (mutatedText originalText : List Char) : List Char :=
  joinSpace (coherentWords (splitSpace mutatedText) (splitSpace originalText))

/-! ## Text mutator -/

/-- The class `\s` of JavaScript regular expressions. -/
def isWhiteSpace (c : Char) : Bool :=
  let n := c.toNat
  (9 ≤ n ∧ n ≤ 13) ∨ n = 0x20 ∨ n = 0xA0 ∨ n = 0x1680 ∨ (0x2000 ≤ n ∧ n ≤ 0x200A) ∨
    n = 0x2028 ∨ n = 0x2029 ∨ n = 0x202F ∨ n = 0x205F ∨ n = 0x3000 ∨ n = 0xFEFF

/-- The class `[.!?]`. -/
def isSentenceEnd (c : Char) : Bool := c = '.' ∨ c = '!' ∨ c = '?'

/-- The scan of `text.split(/(?<=[.!?])\s+/)`: `current` is the sentence being
read, `afterEnd` tells that the previous character is one of `.!?`, `inGap`
that a separator (a run of white space after `.!?`) is being read. -/
def splitSentencesAux : List Char → List Char → Bool → Bool → List (List Char)
  | [], current, _, _ => [current]
  | c :: rest, current, afterEnd, inGap =>
    if inGap ∧ isWhiteSpace c then splitSentencesAux rest [] false true
    else if afterEnd ∧ isWhiteSpace c then current :: splitSentencesAux rest [] false true
    else splitSentencesAux rest (current ++ [c]) (isSentenceEnd c) false

/-- The sentences `text.split(/(?<=[.!?])\s+/)`. -/
def splitSentences (text : List Char) : List (List Char) :=
  splitSentencesAux text [] false false

/-- The callback of `sentences.map` in `mutateText`, over all sentences. -/
def mutateSentences (M : TransitionMatrix) : List (List Char) → Rand → List (List Char) × Rand
  | [], g => ([], g)
  | sentence :: rest, g =>
    let mutated := mutateSentence M sentence g
    let r := mutateSentences M rest mutated.2
    (makeCoherent mutated.1 sentence :: r.1, r.2)

/-- The method `mutateText(text)` of `GOCSMutator`. -/
def mutateText (M : TransitionMatrix) (text : List Char) (g : Rand) : List Char × Rand :=
  let r := mutateSentences M (splitSentences text) g
  (joinSpace r.1, r.2)

/-! ## Population profiles (class `MultilingualGOCS`) -/

/-- One entry `{ trigger, word }` of a vocabulary. -/
structure VocabItem where
  trigger : String
  word : String
  deriving DecidableEq

/-- One population profile: a transition matrix and a vocabulary. -/
structure PopulationProfile where
  transitionMatrix : TransitionMatrix
  vocabulary : List VocabItem
  deriving DecidableEq

/-- The matrix of the profile `yoruba`. -/
def yorubaMatrix : TransitionMatrix where
  rowA := [(G, 0.6), (C, 0.1), (T, 0.1), (A, 0.2)]
  rowG := [(A, 0.3), (C, 0.1), (T, 0.1), (G, 0.5)]
  rowC := [(T, 0.4), (A, 0.1), (G, 0.1), (C, 0.4)]
  rowT := [(C, 0.4), (A, 0.1), (G, 0.1), (T, 0.4)]

/-- The matrix of the profile `han`. -/
def hanMatrix : TransitionMatrix where
  rowA := [(G, 0.3), (C, 0.2), (T, 0.2), (A, 0.3)]
  rowG := [(A, 0.3), (C, 0.2), (T, 0.2), (G, 0.3)]
  rowC := [(T, 0.3), (A, 0.2), (G, 0.2), (C, 0.3)]
  rowT := [(C, 0.3), (A, 0.2), (G, 0.2), (T, 0.3)]

/-- The matrix of the profile `european`. -/
def europeanMatrix : TransitionMatrix where
  rowA := [(G, 0.4), (C, 0.1), (T, 0.1), (A, 0.4)]
  rowG := [(A, 0.4), (C, 0.1), (T, 0.1), (G, 0.4)]
  rowC := [(T, 0.5), (A, 0.1), (G, 0.1), (C, 0.3)]
  rowT := [(C, 0.3), (A, 0.1), (G, 0.1), (T, 0.5)]

/-- The object `this.populationProfiles`: its own properties, in order. -/
def populationProfiles : List (String × PopulationProfile) :=
  [("yoruba",
      { transitionMatrix := yorubaMatrix,
        vocabulary := [⟨"water", "omi"⟩, ⟨"house", "ile"⟩, ⟨"person", "eniyan"⟩,
          ⟨"food", "ounje"⟩, ⟨"good", "dara"⟩] }),
   ("han",
      { transitionMatrix := hanMatrix,
        vocabulary := [⟨"mountain", "shān"⟩, ⟨"water", "shuǐ"⟩, ⟨"person", "rén"⟩,
          ⟨"book", "shū"⟩, ⟨"good", "hǎo"⟩] }),
   ("european",
      { transitionMatrix := europeanMatrix,
        vocabulary := [⟨"water", "eau"⟩, ⟨"house", "maison"⟩, ⟨"person", "personne"⟩,
          ⟨"book", "livre"⟩, ⟨"good", "bon"⟩] })]

/-- The matrices the program contains: the default one and the three profiles. -/
def builtinMatrices : List TransitionMatrix :=
  defaultMatrix :: populationProfiles.map (fun p => p.2.transitionMatrix)

/-- The property names that every object literal inherits from
`Object.prototype`; each of them holds a function or an object, none of which
has a property `transitionMatrix`. -/
def objectPrototypeKeys : List String :=
  ["constructor", "hasOwnProperty", "isPrototypeOf", "propertyIsEnumerable",
   "toLocaleString", "toString", "valueOf", "__proto__", "__defineGetter__",
   "__defineSetter__", "__lookupGetter__", "__lookupSetter__"]

/-- The value of a property read `profiles[key]`. -/
inductive ProfileValue
  | own (profile : PopulationProfile)
  | inherited
  | undefined
  deriving DecidableEq

/-- The property read `profiles[key]` on an object literal: an own property,
else a member of `Object.prototype`, else `undefined`. -/
def getProperty (profiles : List (String × PopulationProfile)) (key : String) : ProfileValue :=
  match profiles.lookup key with
  | some profile => ProfileValue.own profile
  | none => if key ∈ objectPrototypeKeys then ProfileValue.inherited else ProfileValue.undefined

/-- The fields of a `MultilingualGOCS`; `transitionMatrix` is `none` when the
field holds `undefined`. -/
structure MultilingualGOCS where
  populationProfiles : List (String × PopulationProfile)
  activePopulation : String
  transitionMatrix : Option TransitionMatrix
  deriving DecidableEq

/-- The constructor of `MultilingualGOCS`: the base constructor installs the
default matrix, the active population starts as `european`. -/
def MultilingualGOCS.new : MultilingualGOCS where
  populationProfiles := GOCS.populationProfiles
  activePopulation := "european"
  transitionMatrix := some defaultMatrix

/-- The method `setPopulation(population)`: the returned flag and the state
after the call. -/
def setPopulation (s : MultilingualGOCS) (population : String) : Bool × MultilingualGOCS :=
  match getProperty s.populationProfiles population with
  | ProfileValue.own profile =>
    (true, { s with activePopulation := population,
                    transitionMatrix := some profile.transitionMatrix })
  | ProfileValue.inherited =>
    (true, { s with activePopulation := population, transitionMatrix := none })
  | ProfileValue.undefined => (false, s)

/-! ## Matrix table (`visualizeMatrix`) -/

/-- The key of a nucleotide as text. -/
def Nucleotide.name : Nucleotide → Char
  | A => 'A'
  | G => 'G'
  | C => 'C'
  | T => 'T'

/-- The method `Number.prototype.toFixed(0)` on an exact number below `10^21`:
a minus sign for a negative number, then the integer nearest to the absolute
value, the larger one of two nearest. -/
def toFixed0 (x : ℚ) : List Char :=
  (if x < 0 then ['-'] else []) ++ (Nat.repr ⌊|x| + 1 / 2⌋₊).toList

/-- The text `(targets[nucleotide] * 100).toFixed(0)`; a missing entry is
`undefined`, whose product is `NaN`. -/
def percentText (targets : Row) (nucleotide : Nucleotide) : List Char :=
  match targets.prob nucleotide with
  | some p => toFixed0 (p * 100)
  | none => "NaN".toList

/-- The inner loop of `visualizeMatrix` over the columns that are left. -/
def visualizeCells (targets : Row) : List Nucleotide → List Char
  | [] => []
  | nucleotide :: rest =>
    " ".toList ++ percentText targets nucleotide ++ "%  |".toList ++ visualizeCells targets rest

/-- One pass of the outer loop of `visualizeMatrix`: the line of one row. -/
def visualizeLine (source : Nucleotide) (targets : Row) : List Char :=
  " ".toList ++ [source.name] ++ " |".toList ++ visualizeCells targets [A, G, C, T] ++
    "\n".toList

/-- The method `visualizeMatrix()`; the rows come in the order of
`Object.entries(this.transitionMatrix)`, which is A, G, C, T. -/
def visualizeMatrix (M : TransitionMatrix) : List Char :=
  "GOCS Transition Matrix:\n\n".toList ++
    "   | A    | G    | C    | T    |\n".toList ++
    "---|------|------|------|------|\n".toList ++
    visualizeLine A M.rowA ++ visualizeLine G M.rowG ++ visualizeLine C M.rowC ++
    visualizeLine T M.rowT

/-- The lines of a text: `text.split('\n')`. -/
def splitLines : List Char → List (List Char)
  | [] => [[]]
  | c :: cs =>
    if c = '\n' then [] :: splitLines cs
    else
      match splitLines cs with
      | [] => [[c]]
      | l :: ls => (c :: l) :: ls

/-! ## Pronounceability repair (class `PhoneticGOCS`) -/

/-- The class `[ptkbdg]`. -/
def isStop (c : Char) : Bool :=
  c = 'p' ∨ c = 't' ∨ c = 'k' ∨ c = 'b' ∨ c = 'd' ∨ c = 'g'

/-- The scan of `word.replace(/([ptkbdg][ptkbdg][ptkbdg])/g, ...)`: `inMatch`
is the number of characters of the current match that are still to be copied.
A match of three stop consonants is replaced by its first character, `e`, and
its other two characters; the search goes on after the match. -/
def ensurePronounceabilityAux : List Char → Nat → List Char
  | [], _ => []
  | c :: rest, inMatch + 1 => c :: ensurePronounceabilityAux rest inMatch
  | c :: rest, 0 =>
    if isStop c ∧ (rest.take 2).length = 2 ∧ (rest.take 2).all isStop then
      c :: 'e' :: ensurePronounceabilityAux rest 2
    else c :: ensurePronounceabilityAux rest 0

/-- The method `ensurePronounceability(word)` of `PhoneticGOCS`. -/
def ensurePronounceability (word : List Char) : List Char :=
  ensurePronounceabilityAux word 0

/-- Three consecutive stop consonants somewhere in a word. -/
def hasStopCluster : List Char → Bool
  | c1 :: c2 :: c3 :: rest =>
    (isStop c1 && isStop c2 && isStop c3) || hasStopCluster (c2 :: c3 :: rest)
  | _ => false

/-! ## Regular expressions of the variant engines

The patterns of the variant engines are made of the assertion `\b`, of ASCII
words matched without regard to case (flag `i`), and of the class `[a-z]`.
Without the flag `u` a character that is not ASCII matches no ASCII letter. -/

/-- The class `\w`. -/
def isWordChar (c : Char) : Bool := c.isAlphanum || c = '_'

/-- The assertion `\b` between the character `before` and the character
`after` (`none` at either end of the text). -/
def wordBoundary (before after : Option Char) : Bool :=
  (before.any isWordChar) != (after.any isWordChar)

/-- One character of the text against one ASCII character of a pattern under
the flag `i`. -/
def matchesChar (c patternChar : Char) : Bool := c.toUpper = patternChar.toUpper

/-- The characters of `literal` matched one by one at the head of the text:
the rest of the text after the match, and the last character matched. -/
def matchLiteral : List Char → List Char → Option Char → Option (List Char × Option Char)
  | [], text, last => some (text, last)
  | _ :: _, [], _ => none
  | p :: ps, c :: cs, _ => if matchesChar c p then matchLiteral ps cs (some c) else none

/-- The pattern `\bliteral\b` (flag `i`) matched at the head of `text`, where
`before` is the character in front of it; `literal` is a non-empty ASCII word. -/
def matchesWordAt (literal : List Char) (before : Option Char) (text : List Char) : Bool :=
  wordBoundary before text.head? &&
    match matchLiteral literal text before with
    | some (rest, last) => wordBoundary last rest.head?
    | none => false

/-- The scan of `text.replace(/\btrigger\b/gi, word)`: `inMatch` is the number
of characters of the current match that are still to be skipped. -/
def replaceWordAux (trigger word : List Char) : List Char → Option Char → Nat → List Char
  | [], _, _ => []
  | c :: rest, _, inMatch + 1 => replaceWordAux trigger word rest (some c) inMatch
  | c :: rest, before, 0 =>
    if matchesWordAt trigger before (c :: rest) then
      word ++ replaceWordAux trigger word rest (some c) (trigger.length - 1)
    else c :: replaceWordAux trigger word rest (some c) 0

/-- The call `text.replace(new RegExp('\\b' + trigger + '\\b', 'gi'), word)`
for a trigger that is a non-empty ASCII word and a replacement without `$`. -/
def replaceWord (trigger word text : List Char) : List Char :=
  replaceWordAux trigger word text none 0

/-- The test of `/\b(alt1|alt2|...)\b/i` somewhere in the text from here on. -/
def testAlternatives (alternatives : List (List Char)) : Option Char → List Char → Bool
  | before, [] => alternatives.any (fun alt => matchesWordAt alt before [])
  | before, c :: rest =>
    alternatives.any (fun alt => matchesWordAt alt before (c :: rest)) ||
      testAlternatives alternatives (some c) rest

/-- The class `[a-z]` under the flag `i`. -/
def isAsciiLetter (c : Char) : Bool := c.isAlpha

/-- The rest of `/([a-z]+)(suffix1|...)\b/i` after `\b`, matched at the head
of `text`: some positive number of letters, one of the suffixes, and `\b`. -/
def matchesStemSuffix (suffixes : List (List Char)) : List Char → Bool
  | [] => false
  | c :: rest =>
    isAsciiLetter c &&
      (suffixes.any (fun suffix =>
          match matchLiteral suffix rest (some c) with
          | some (after, last) => wordBoundary last after.head?
          | none => false) ||
        matchesStemSuffix suffixes rest)

/-- The test of `/\b([a-z]+)(suffix1|...)\b/i` somewhere in the text from here
on. -/
def testStemSuffix (suffixes : List (List Char)) : Option Char → List Char → Bool
  | _, [] => false
  | before, c :: rest =>
    (wordBoundary before (some c) && matchesStemSuffix suffixes (c :: rest)) ||
      testStemSuffix suffixes (some c) rest

/-- The method `split(/\s+/)`: `current` is the piece being read, `inGap`
tells that a run of white space is being read. -/
def splitWhiteSpaceAux : List Char → List Char → Bool → List (List Char)
  | [], current, _ => [current]
  | c :: rest, current, inGap =>
    if isWhiteSpace c then
      if inGap then splitWhiteSpaceAux rest [] true
      else current :: splitWhiteSpaceAux rest [] true
    else splitWhiteSpaceAux rest (current ++ [c]) false

/-- The pieces `text.split(/\s+/)`. -/
def splitWhiteSpace (text : List Char) : List (List Char) :=
  splitWhiteSpaceAux text [] false

/-! ## Text mutation with population switching (class `MultilingualGOCS`) -/

/-- The innermost loop of the first pass of `mutateText`: the vocabulary of one
profile against one word; a trigger that equals the word draws a number, and a
draw below 0.4 switches to the population and leaves the loop. -/
def switchOnVocabulary (word : List Char) (population : String) :
    List VocabItem → MultilingualGOCS → Rand → MultilingualGOCS × Rand
  | [], s, g => (s, g)
  | vocabItem :: rest, s, g =>
    if word.map toLowerCase = vocabItem.trigger.toList.map toLowerCase then
      if g.head.val < 0.4 then ((setPopulation s population).2, g.tail)
      else switchOnVocabulary word population rest s g.tail
    else switchOnVocabulary word population rest s g

/-- The middle loop of the first pass: all profiles against one word. -/
def switchOnProfiles (word : List Char) :
    List (String × PopulationProfile) → MultilingualGOCS → Rand → MultilingualGOCS × Rand
  | [], s, g => (s, g)
  | (population, profile) :: rest, s, g =>
    let r := switchOnVocabulary word population profile.vocabulary s g
    switchOnProfiles word rest r.1 r.2

/-- The first pass of `mutateText`: all words of the text. -/
def switchOnWords : List (List Char) → MultilingualGOCS → Rand → MultilingualGOCS × Rand
  | [], s, g => (s, g)
  | word :: rest, s, g =>
    let r := switchOnProfiles word s.populationProfiles s g
    switchOnWords rest r.1 r.2

/-- The second pass of `mutateText`: every vocabulary item draws a number, and
a draw below 0.3 replaces the trigger everywhere in the text. -/
def replaceVocabulary : List VocabItem → List Char → Rand → List Char × Rand
  | [], text, g => (text, g)
  | vocabItem :: rest, text, g =>
    if g.head.val < 0.3 then
      replaceVocabulary rest (replaceWord vocabItem.trigger.toList vocabItem.word.toList text)
        g.tail
    else replaceVocabulary rest text g.tail

/-- The method `mutateText(text)` of `MultilingualGOCS`: the text, the random
source and the engine after the call, or `none` when the call throws a
`TypeError`: the active population is not a profile (so `profile.vocabulary`
is not iterable), or the matrix field holds `undefined`. -/
def MultilingualGOCS.mutateText (s : MultilingualGOCS) (text : List Char) (g : Rand) :
    Option (List Char × Rand × MultilingualGOCS) :=
  let words := splitWhiteSpace text
  let r := switchOnWords words s g
  match getProperty r.1.populationProfiles r.1.activePopulation with
  | ProfileValue.own profile =>
    let m := replaceVocabulary profile.vocabulary text r.2
    match r.1.transitionMatrix with
    | some M =>
      let out := GOCS.mutateText M m.1 m.2
      some (out.1, out.2, r.1)
    | none => none
  | ProfileValue.inherited => none
  | ProfileValue.undefined => none

/-! ## Silencing (class `EpigeneticGOCS`) -/

/-- One entry of `this.methylationPatterns`: the test of its pattern on a word
and its probability. -/
structure MethylationPattern where
  test : List Char → Bool
  methylationProb : ℚ

/-- The list `this.methylationPatterns`. -/
def methylationPatterns : List MethylationPattern :=
  [{ test := testAlternatives
        ["very".toList, "really".toList, "quite".toList, "just".toList, "simply".toList,
         "actually".toList, "literally".toList] none,
     methylationProb := 0.7 },
   { test := testStemSuffix
        ["ful".toList, "ous".toList, "ive".toList, "able".toList, "ible".toList] none,
     methylationProb := 0.4 },
   { test := testAlternatives
        ["the".toList, "a".toList, "an".toList, "in".toList, "on".toList, "at".toList,
         "to".toList, "for".toList, "with".toList, "by".toList] none,
     methylationProb := 0.2 }]

/-- The loop over the patterns for one word: the first pattern that matches
the word and whose draw is below its probability silences the word. -/
def isMethylated (word : List Char) : List MethylationPattern → Rand → Bool × Rand
  | [], g => (false, g)
  | pattern :: rest, g =>
    if pattern.test word then
      if g.head.val < pattern.methylationProb then (true, g.tail)
      else isMethylated word rest g.tail
    else isMethylated word rest g

/-- The callback of `words.map` in `mutateSentence`, over all words: the set
`this.methylatedWords` after the pass. -/
def methylate : List (List Char) → List (List Char) → Rand → List (List Char) × Rand
  | [], methylatedWords, g => (methylatedWords, g)
  | word :: rest, methylatedWords, g =>
    let r := isMethylated word methylationPatterns g
    methylate rest (if r.1 then methylatedWords ++ [word] else methylatedWords) r.2

/-- The marking pass: the word of index `i` is wrapped in `*` when the original
word of index `min(i, words.length - 1)` is in `methylatedWords`. -/
def markWords (words methylatedWords : List (List Char)) :
    List (List Char) → Nat → List (List Char)
  | [], _ => []
  | mutatedWord :: rest, i =>
    (match words[min i (words.length - 1)]? with
      | some originalWord =>
        if originalWord ∈ methylatedWords then '*' :: mutatedWord ++ ['*'] else mutatedWord
      | none => mutatedWord) :: markWords words methylatedWords rest (i + 1)

/-- The test `w.startsWith('*') && w.endsWith('*')`. -/
def isMarked (w : List Char) : Bool := w.head? = some '*' && w.getLast? = some '*'

/-- The last loop of `mutateSentence` from the word `current` on, `following`
being the words after it: behind a marked word a draw below 0.6 replaces the
next word by the mutation, in a high mutation zone, of the next word without
its `*` characters. -/
def knockOn (M : TransitionMatrix) :
    List Char → List (List Char) → Rand → List (List Char) × Rand
  | current, [], g => ([current], g)
  | current, next :: rest, g =>
    if isMarked current then
      if g.head.val < 0.6 then
        let m := mutateWord M (next.filter (fun c => c ≠ '*')) true g.tail
        let r := knockOn M m.1 rest m.2
        (current :: r.1, r.2)
      else
        let r := knockOn M next rest g.tail
        (current :: r.1, r.2)
    else
      let r := knockOn M next rest g
      (current :: r.1, r.2)

/-- The method `mutateSentence(sentence)` of `EpigeneticGOCS`. -/
def epigeneticMutateSentence (M : TransitionMatrix) (sentence : List Char) (g : Rand) :
    List Char × Rand :=
  let words := splitSpace sentence
  let meth := methylate words [] g
  let base := mutateSentence M sentence meth.2
  let marked := markWords words meth.1 (splitSpace base.1) 0
  match marked with
  | [] => ([], base.2)
  | first :: rest =>
    let r := knockOn M first rest base.2
    (joinSpace r.1, r.2)

/-! ## Auxiliary notions for the statements -/

/-- The nine letters that have a nucleotide. -/
def mappedLetters : List Char := ['e', 'a', 'r', 'n', 's', 'k', 't', 'o', 'i']

/-- The cumulative probability of the entries that precede `target` in a row. -/
def cumulativeBefore : Row → Nucleotide → ℚ
  | [], _ => 0
  | (t, p) :: rest, target => if t = target then 0 else p + cumulativeBefore rest target

/-- What `mutateWord` may do with a character: keep it, or replace a
character that has a nucleotide by one of the nine mapped letters. -/
def MutatedFrom (c o : Char) : Prop :=
  o = c ∨ (letterToNucleotide (toLowerCase c) ≠ none ∧ o ∈ mappedLetters)

/-- The test of `mutateSentence` that a word starts a haplotype: the search
`haplotypeList.find(h => h.toLowerCase().startsWith(word.toLowerCase()))`
finds a phrase. -/
def startsHaplotype (word : List Char) : Bool :=
  (haplotypeList.find?
    (fun h => (word.map toLowerCase).isPrefixOf (h.map toLowerCase))).isSome

/-- The first character of the original word followed by the mutated word
without its first character: the word that `makeCoherent` writes for a word
that is too different. -/
def repairedWord (mutWord origWord : List Char) : List Char :=
  jsToString (firstChar origWord) ++ mutWord.drop 1

/-- The number of characters of the word of index `i` (from 0) of a sentence
after the scheduled deletion and insertion, for a word of `len` characters. -/
def scheduledLength (i len : Nat) : Nat :=
  len - (if (i + 1) % 5 = 0 ∧ 2 < len then 1 else 0) + (if (i + 1) % 4 = 0 then 1 else 0)

/-- The local variables of `mutateSentence` before the loop. -/
def SentenceState.initial : SentenceState :=
  { mutatedWords := [], silentMutation := false, inHaplotype := false, currentHaplotype := [] }

/-- The loop of `mutateSentence` on the words of a sentence: the local
variables and the random source at the end of the loop. -/
def sentenceRun (M : TransitionMatrix) (sentence : List Char) (g : Rand) :
    SentenceState × Rand :=
  mutateSentenceLoop M (splitSpace sentence) 0 SentenceState.initial g

/-- The regular path of the loop of `mutateSentence` for the word of index
`i`: the word after `mutateWord` and the scheduled deletion and insertion, and
the random source from which the draw of the silent mutation is taken next. -/
def regularStep (M : TransitionMatrix) (word : List Char) (i : Nat) (g : Rand) :
    List Char × Rand :=
  let m := mutateWord M word (decide ((i + 1) % 3 = 0)) g
  let d := if (i + 1) % 5 = 0 then applyIndel m.1 i "deletion" m.2 else m
  if (i + 1) % 4 = 0 then applyIndel d.1 i "insertion" d.2 else d

/-- The word takes the regular path of the loop of `mutateSentence`: it does
not complete the haplotype being accumulated and does not start one. -/
def takesRegularPath (st : SentenceState) (word : List Char) : Bool :=
  !(st.inHaplotype &&
      haplotypeList.any (fun h => h = (st.currentHaplotype ++ ' ' :: word).map toLowerCase)) &&
    !(startsHaplotype word && !st.inHaplotype)

/-- The draws that the loop of `mutateSentence` compares with 0.05: one for
every word that takes the regular path. -/
def silentDraws (M : TransitionMatrix) :
    List (List Char) → Nat → SentenceState → Rand → List Draw
  | [], _, _, _ => []
  | word :: rest, i, st, g =>
    let r := mutateSentenceLoop M [word] i st g
    if takesRegularPath st word then
      (regularStep M word i g).2.head :: silentDraws M rest (i + 1) r.1 r.2
    else silentDraws M rest (i + 1) r.1 r.2

/-! ## Basic facts -/

theorem builtinMatrices_eq :
    builtinMatrices = [defaultMatrix, yorubaMatrix, hanMatrix, europeanMatrix] := rfl

theorem letterToNucleotide_eq_none_iff (x : Char) :
    letterToNucleotide x = none ↔ x ∉ mappedLetters := by
  simp [letterToNucleotide, nucleotideKeys, nucleotideMap, Function.update, mappedLetters]
  split_ifs <;> simp_all

theorem letterToNucleotide_of_mem (n : Nucleotide) (c : Char) (h : c ∈ nucleotideMap n) :
    letterToNucleotide c = some n := by
  revert c
  cases n <;> decide

theorem nucleotideMap_subset_mapped (n : Nucleotide) (c : Char) (h : c ∈ nucleotideMap n) :
    c ∈ mappedLetters := by
  revert c
  cases n <;> decide

theorem nucleotideMap_length_pos (n : Nucleotide) : 0 < (nucleotideMap n).length := by
  cases n <;> decide

theorem Draw.lt_one (d : Draw) : d.val < 1 := by
  have h1 := d.le_max
  have h2 : (0 : ℚ) < 1 / 2 ^ 53 := by positivity
  linarith

theorem roundHalfEven_le (y : ℚ) : (roundHalfEven y : ℚ) ≤ y + 1 / 2 := by
  unfold roundHalfEven
  have h1 := Int.floor_le y
  have h2 := Int.lt_floor_add_one y
  split_ifs with a b c
  · linarith
  · push_cast; linarith
  · linarith
  · push_cast; linarith

theorem roundHalfEven_nonneg (y : ℚ) (h : 0 ≤ y) : (0 : ℚ) ≤ (roundHalfEven y : ℚ) := by
  unfold roundHalfEven
  have h1 : (0 : ℤ) ≤ ⌊y⌋ := Int.floor_nonneg.2 h
  have h2 : (0 : ℚ) ≤ (⌊y⌋ : ℚ) := by exact_mod_cast h1
  split_ifs <;> push_cast <;> linarith

theorem doubleSpacing_pos (x : ℚ) : 0 < doubleSpacing x := by
  unfold doubleSpacing
  positivity

theorem doubleSpacing_le (x : ℚ) (hx : 0 < x) :
    doubleSpacing x ≤ max (x / 2 ^ 52) (1 / 2 ^ 1074) := by
  unfold doubleSpacing
  rcases le_total (Int.log 2 x) (-1022) with h | h
  · rw [max_eq_right h]
    apply le_max_of_le_right
    norm_num
  · rw [max_eq_left h]
    apply le_max_of_le_left
    rw [zpow_sub₀ (by norm_num : (2 : ℚ) ≠ 0)]
    have h2 : ((2 : ℕ) : ℚ) ^ Int.log 2 x ≤ x := Int.zpow_log_le_self (by norm_num) hx
    have h3 : (2 : ℚ) ^ (52 : ℤ) = 2 ^ 52 := by norm_num
    rw [h3]
    apply div_le_div_of_nonneg_right _ (by positivity)
    simpa using h2

theorem roundDouble_nonneg (x : ℚ) (hx : 0 ≤ x) : 0 ≤ roundDouble x := by
  unfold roundDouble
  exact mul_nonneg (doubleSpacing_pos x).le
    (roundHalfEven_nonneg _ (div_nonneg hx (doubleSpacing_pos x).le))

theorem roundDouble_le (x : ℚ) : roundDouble x ≤ x + doubleSpacing x / 2 := by
  unfold roundDouble
  have hq := doubleSpacing_pos x
  have h := roundHalfEven_le (x / doubleSpacing x)
  calc doubleSpacing x * (roundHalfEven (x / doubleSpacing x) : ℚ)
      ≤ doubleSpacing x * (x / doubleSpacing x + 1 / 2) :=
        mul_le_mul_of_nonneg_left h hq.le
    _ = x + doubleSpacing x / 2 := by
        field_simp
        ring

theorem roundDouble_zero : roundDouble 0 = 0 := by
  simp [roundDouble, roundHalfEven]

theorem Draw.index_lt (d : Draw) (n : Nat) (h : 0 < n) : d.index n < n := by
  unfold Draw.index
  have hn : (1 : ℚ) ≤ n := by exact_mod_cast h
  have hx0 : 0 ≤ d.val * (n : ℚ) := mul_nonneg d.nonneg (by linarith)
  rw [Nat.floor_lt (roundDouble_nonneg _ hx0)]
  rcases hx0.eq_or_lt with h0 | hpos
  · rw [← h0, roundDouble_zero]
    linarith
  · have hle := roundDouble_le (d.val * (n : ℚ))
    have hs := doubleSpacing_le _ hpos
    have hmax := d.le_max
    have hxn : d.val * (n : ℚ) ≤ (n : ℚ) - (n : ℚ) / 2 ^ 53 := by
      have : d.val * (n : ℚ) ≤ (1 - 1 / 2 ^ 53) * (n : ℚ) :=
        mul_le_mul_of_nonneg_right hmax (by linarith)
      linarith
    rcases le_max_iff.1 hs with h1 | h1
    · have e1 : d.val * (n : ℚ) / 2 ^ 52 / 2 ≤ ((n : ℚ) - (n : ℚ) / 2 ^ 53) / 2 ^ 53 := by
        rw [div_div]
        have : (2 : ℚ) ^ 52 * 2 = 2 ^ 53 := by norm_num
        rw [this]
        exact div_le_div_of_nonneg_right hxn (by positivity)
      have e2 : ((n : ℚ) - (n : ℚ) / 2 ^ 53) / 2 ^ 53 < (n : ℚ) / 2 ^ 53 := by
        apply div_lt_div_of_pos_right _ (by positivity)
        have : (0 : ℚ) < (n : ℚ) / 2 ^ 53 := by positivity
        linarith
      linarith
    · have e1 : (1 : ℚ) / 2 ^ 1074 / 2 < 1 / 2 ^ 53 := by norm_num
      have e2 : (1 : ℚ) / 2 ^ 53 ≤ (n : ℚ) / 2 ^ 53 :=
        div_le_div_of_nonneg_right hn (by positivity)
      linarith

theorem Draw.index_draw0 (n : Nat) : draw0.index n = 0 := by
  have h : draw0.val = 0 := rfl
  rw [Draw.index, h, zero_mul, roundDouble_zero]
  simp

theorem log_two_eq (x : ℚ) (e : ℤ) (h1 : (2 : ℚ) ^ e ≤ x) (h2 : x < (2 : ℚ) ^ (e + 1)) :
    Int.log 2 x = e := by
  have hx : 0 < x := lt_of_lt_of_le (by positivity) h1
  have a : e ≤ Int.log 2 x := (Int.zpow_le_iff_le_log (by norm_num) hx).1 (by simpa using h1)
  have b : Int.log 2 x < e + 1 := (Int.lt_zpow_iff_log_lt (by norm_num) hx).1 (by simpa using h2)
  omega

theorem Draw.index_drawDouble07 : drawDouble07.index 10 = 7 := by
  have hx : drawDouble07.val * ((10 : ℕ) : ℚ) = 63050394783186940 / 2 ^ 53 := by
    simp only [drawDouble07]
    norm_num
  have hlog : Int.log 2 ((63050394783186940 : ℚ) / 2 ^ 53) = 2 :=
    log_two_eq _ 2 (by norm_num) (by norm_num)
  have hsp : doubleSpacing ((63050394783186940 : ℚ) / 2 ^ 53) = 1 / 2 ^ 50 := by
    rw [doubleSpacing, hlog]
    norm_num
  have hq : (63050394783186940 : ℚ) / 2 ^ 53 / (1 / 2 ^ 50) = 15762598695796735 / 2 := by
    norm_num
  have hfl : ⌊(15762598695796735 : ℚ) / 2⌋ = 7881299347898367 := by
    rw [Int.floor_eq_iff]
    constructor <;> norm_num
  have hr : roundHalfEven ((15762598695796735 : ℚ) / 2) = 7881299347898368 := by
    simp only [roundHalfEven, hfl]
    norm_num
  rw [Draw.index, hx, roundDouble, hsp, hq, hr]
  norm_num

theorem getLetterFromNucleotide_some (n : Nucleotide) (g : Rand) :
    ∃ c, (getLetterFromNucleotide n g).1 = some c ∧ c ∈ nucleotideMap n := by
  have hlt := Draw.index_lt g.head (nucleotideMap n).length (nucleotideMap_length_pos n)
  refine ⟨(nucleotideMap n).get ⟨_, hlt⟩, ?_, List.get_mem _ _ _⟩
  simp [getLetterFromNucleotide, List.getElem?_eq_getElem hlt]

theorem getLetterFromNucleotide_snd (n : Nucleotide) (g : Rand) :
    (getLetterFromNucleotide n g).2 = g.tail := rfl

theorem getTransitionTarget_snd (M : TransitionMatrix) (n : Nucleotide) (g : Rand) :
    (getTransitionTarget M n g).2 = g.tail := rfl

/-! ## The transition matrices -/

theorem builtin_row_facts (M : TransitionMatrix) (hM : M ∈ builtinMatrices) (n : Nucleotide) :
    ((M.row n).map Prod.fst).Perm [A, G, C, T] ∧
      (∀ e ∈ M.row n, 0 ≤ e.2 ∧ e.2 ≤ 1) ∧
      ((M.row n).map Prod.snd).sum = 1 := by
  simp only [builtinMatrices_eq, List.mem_cons, List.mem_singleton, List.not_mem_nil,
    or_false] at hM
  rcases hM with rfl | rfl | rfl | rfl <;> cases n <;>
    refine ⟨by decide, ?_, ?_⟩ <;>
    simp [TransitionMatrix.row, defaultMatrix, yorubaMatrix, hanMatrix, europeanMatrix] <;>
    norm_num

/-- Claim C6: in the default matrix and in the matrices of the three
population profiles, every row has exactly the four targets A, G, C, T, every
probability lies between 0 and 1, and the probabilities of a row sum to 1. -/
theorem builtin_rows_are_distributions (M : TransitionMatrix) (hM : M ∈ builtinMatrices)
    (n : Nucleotide) :
    ((M.row n).map Prod.fst).Perm [A, G, C, T] ∧
      (∀ e ∈ M.row n, 0 ≤ e.2 ∧ e.2 ≤ 1) ∧
      ((M.row n).map Prod.snd).sum = 1 :=
  builtin_row_facts M hM n

/-- Witness of C6 at the row C of the european matrix. -/
theorem builtin_rows_are_distributions_witness :
    europeanMatrix ∈ builtinMatrices ∧
      ((europeanMatrix.row C).map Prod.fst).Perm [A, G, C, T] ∧
      (∀ e ∈ europeanMatrix.row C, 0 ≤ e.2 ∧ e.2 ≤ 1) ∧
      ((europeanMatrix.row C).map Prod.snd).sum = 1 :=
  ⟨by simp [builtinMatrices_eq],
    builtin_rows_are_distributions europeanMatrix (by simp [builtinMatrices_eq]) C⟩

/-! ## Sampling a transition target -/

theorem cumulativeBefore_nonneg (row : Row) (hpos : ∀ e ∈ row, 0 ≤ e.2) (t : Nucleotide) :
    0 ≤ cumulativeBefore row t := by
  induction row with
  | nil => simp [cumulativeBefore]
  | cons e rest ih =>
    obtain ⟨t1, p1⟩ := e
    have h1 : 0 ≤ p1 := hpos (t1, p1) (List.mem_cons_self _ _)
    have h2 := ih (fun e he => hpos e (List.mem_cons_of_mem _ he))
    simp only [cumulativeBefore]
    split_ifs
    · exact le_refl 0
    · linarith

theorem Row.prob_of_mem (row : Row) (t : Nucleotide) (ht : t ∈ row.map Prod.fst) :
    ∃ p, row.prob t = some p ∧ (t, p) ∈ row := by
  induction row with
  | nil => simp at ht
  | cons e rest ih =>
    obtain ⟨t1, p1⟩ := e
    by_cases h : t1 = t
    · exact ⟨p1, by simp [Row.prob, h], by simp [h]⟩
    · have ht2 : t ∈ rest.map Prod.fst := by
        simp only [List.map_cons, List.mem_cons] at ht
        rcases ht with ht | ht
        · exact absurd ht.symm h
        · exact ht
      obtain ⟨p, hp, hmem⟩ := ih ht2
      exact ⟨p, by simp [Row.prob, h, hp], List.mem_cons_of_mem _ hmem⟩

theorem cumulativeBefore_add_prob_le (row : Row) (hpos : ∀ e ∈ row, 0 ≤ e.2) (t : Nucleotide) :
    cumulativeBefore row t + (row.prob t).getD 0 ≤ (row.map Prod.snd).sum := by
  induction row with
  | nil => simp [cumulativeBefore, Row.prob]
  | cons e rest ih =>
    obtain ⟨t1, p1⟩ := e
    have h1 : 0 ≤ p1 := hpos (t1, p1) (List.mem_cons_self _ _)
    have hrest : ∀ e ∈ rest, 0 ≤ e.2 := fun e he => hpos e (List.mem_cons_of_mem _ he)
    have h2 := ih hrest
    have h3 : 0 ≤ (rest.map Prod.snd).sum :=
      List.sum_nonneg (by
        intro x hx
        obtain ⟨e, he, rfl⟩ := List.mem_map.1 hx
        exact hrest e he)
    by_cases h : t1 = t
    · simp only [cumulativeBefore, Row.prob, h, if_true, Option.getD_some, List.map_cons,
        List.sum_cons]
      linarith
    · simp only [cumulativeBefore, Row.prob, h, if_false, List.map_cons, List.sum_cons]
      linarith

theorem selectTarget_mem (row : Row) (r cum : ℚ) (t : Nucleotide)
    (h : selectTarget row r cum = some t) : t ∈ row.map Prod.fst := by
  induction row generalizing cum with
  | nil => simp [selectTarget] at h
  | cons e rest ih =>
    obtain ⟨t1, p1⟩ := e
    simp only [selectTarget] at h
    split_ifs at h with hr
    · simp only [Option.some.injEq] at h
      simp [h]
    · exact List.mem_cons_of_mem _ (ih _ h)

theorem selectTarget_of_between (row : Row) (hpos : ∀ e ∈ row, 0 ≤ e.2) (t : Nucleotide)
    (r cum : ℚ) (h1 : cum + cumulativeBefore row t < r)
    (h2 : r < cum + cumulativeBefore row t + (row.prob t).getD 0) :
    selectTarget row r cum = some t := by
  induction row generalizing cum with
  | nil =>
    simp only [cumulativeBefore, Row.prob, Option.getD_none] at h1 h2
    linarith
  | cons e rest ih =>
    obtain ⟨t1, p1⟩ := e
    have hrest : ∀ e ∈ rest, 0 ≤ e.2 := fun e he => hpos e (List.mem_cons_of_mem _ he)
    have hcb := cumulativeBefore_nonneg rest hrest t
    by_cases h : t1 = t
    · simp only [cumulativeBefore, Row.prob, h, if_true, Option.getD_some] at h1 h2
      have : r ≤ cum + p1 := by linarith
      simp [selectTarget, this, h]
    · simp only [cumulativeBefore, Row.prob, h, if_false] at h1 h2
      have hn : ¬ r ≤ cum + p1 := by
        intro hle
        linarith
      simp only [selectTarget, hn, if_false]
      exact ih hrest (cum + p1) (by linarith) (by linarith)

theorem between_of_selectTarget (row : Row) (hnd : (row.map Prod.fst).Nodup) (t : Nucleotide)
    (r cum : ℚ) (hr : cum ≤ r) (h : selectTarget row r cum = some t) :
    cum + cumulativeBefore row t ≤ r ∧
      r ≤ cum + cumulativeBefore row t + (row.prob t).getD 0 := by
  induction row generalizing cum with
  | nil => simp [selectTarget] at h
  | cons e rest ih =>
    obtain ⟨t1, p1⟩ := e
    simp only [List.map_cons, List.nodup_cons] at hnd
    simp only [selectTarget] at h
    split_ifs at h with hle
    · simp only [Option.some.injEq] at h
      simp only [cumulativeBefore, Row.prob, h, if_true, Option.getD_some]
      constructor <;> linarith
    · have hmem := selectTarget_mem rest r (cum + p1) t h
      have hne : t1 ≠ t := by
        intro heq
        exact hnd.1 (heq ▸ hmem)
      have := ih hnd.2 (cum + p1) (by linarith) h
      simp only [cumulativeBefore, Row.prob, hne, if_false]
      constructor <;> linarith

theorem selectTarget_isSome (row : Row) (r cum : ℚ) (hr : cum ≤ r)
    (h : r < cum + (row.map Prod.snd).sum) : ∃ t, selectTarget row r cum = some t := by
  induction row generalizing cum with
  | nil =>
    simp only [List.map_nil, List.sum_nil, add_zero] at h
    linarith
  | cons e rest ih =>
    obtain ⟨t1, p1⟩ := e
    simp only [List.map_cons, List.sum_cons] at h
    by_cases hle : r ≤ cum + p1
    · exact ⟨t1, by simp [selectTarget, hle]⟩
    · simp only [selectTarget, hle, if_false]
      exact ih (cum + p1) (by linarith) (by linarith)

/-- Claim C7: for every built-in matrix, source nucleotide `n` and target `t`,
the draws in `[0,1)` for which `getTransitionTarget(n)` returns `t` form an
interval with end points `a ≤ b` in `[0,1]` whose length `b - a` is the entry
`M[n][t]`: every draw strictly between `a` and `b` returns `t`, and every draw
that returns `t` lies between `a` and `b`.  The loop always returns from a
bucket, so the fallback `return nucleotide` is never reached. -/
theorem getTransitionTarget_samples_row (M : TransitionMatrix) (hM : M ∈ builtinMatrices)
    (n t : Nucleotide) :
    ∃ a b : ℚ, 0 ≤ a ∧ a ≤ b ∧ b ≤ 1 ∧ (M.row n).prob t = some (b - a) ∧
      ∀ g : Rand,
        (a < g.head.val ∧ g.head.val < b → (getTransitionTarget M n g).1 = t) ∧
        ((getTransitionTarget M n g).1 = t → a ≤ g.head.val ∧ g.head.val ≤ b) ∧
        selectTarget (M.row n) g.head.val 0 = some (getTransitionTarget M n g).1 := by
  obtain ⟨hperm, hbounds, hsum⟩ := builtin_row_facts M hM n
  have hpos : ∀ e ∈ M.row n, 0 ≤ e.2 := fun e he => (hbounds e he).1
  have hnd : ((M.row n).map Prod.fst).Nodup := hperm.nodup_iff.2 (by decide)
  have ht : t ∈ (M.row n).map Prod.fst := hperm.mem_iff.2 (by cases t <;> decide)
  obtain ⟨p, hp, hmem⟩ := Row.prob_of_mem (M.row n) t ht
  have hp0 : 0 ≤ p := hpos (t, p) hmem
  have hcb := cumulativeBefore_nonneg (M.row n) hpos t
  have hle := cumulativeBefore_add_prob_le (M.row n) hpos t
  rw [hp, hsum, Option.getD_some] at hle
  refine ⟨cumulativeBefore (M.row n) t, cumulativeBefore (M.row n) t + p, hcb, by linarith,
    hle, by rw [hp]; congr 1; ring, ?_⟩
  intro g
  have h0 := g.head.nonneg
  have h1 := g.head.lt_one
  obtain ⟨t', ht'⟩ := selectTarget_isSome (M.row n) g.head.val 0 h0 (by rw [hsum]; linarith)
  simp only [getTransitionTarget, ht', Option.getD_some, and_true]
  constructor
  · rintro ⟨ha, hb⟩
    have := selectTarget_of_between (M.row n) hpos t g.head.val 0 (by linarith)
      (by rw [hp, Option.getD_some]; linarith)
    rw [ht'] at this
    exact Option.some.inj this
  · intro heq
    have := between_of_selectTarget (M.row n) hnd t g.head.val 0 h0 (heq ▸ ht')
    rw [hp, Option.getD_some] at this
    constructor <;> linarith [this.1, this.2]

/-- Witness of C7 at the default matrix, source A and target G. -/
theorem getTransitionTarget_samples_row_witness :
    defaultMatrix ∈ builtinMatrices ∧ ∃ a b : ℚ, 0 ≤ a ∧ a ≤ b ∧ b ≤ 1 ∧ (defaultMatrix.row A).prob G = some (b - a) ∧
      ∀ g : Rand,
        (a < g.head.val ∧ g.head.val < b → (getTransitionTarget defaultMatrix A g).1 = G) ∧
        ((getTransitionTarget defaultMatrix A g).1 = G → a ≤ g.head.val ∧ g.head.val ≤ b) ∧
        selectTarget (defaultMatrix.row A) g.head.val 0 =
          some (getTransitionTarget defaultMatrix A g).1 :=
  ⟨by simp [builtinMatrices_eq],
    getTransitionTarget_samples_row defaultMatrix (by simp [builtinMatrices_eq]) A G⟩


/-! ## Letters -/

/-- Claim C8: for every nucleotide and every draw, the index
`floor(r * length)` is in bounds, `getLetterFromNucleotide` returns a letter of
the nucleotide's letter set, and the reverse lookup of that letter is the
nucleotide; every letter of a letter set belongs to that set only. -/
theorem getLetterFromNucleotide_member (n : Nucleotide) (g : Rand) :
    g.head.index (nucleotideMap n).length < (nucleotideMap n).length ∧
      (∃ c, (getLetterFromNucleotide n g).1 = some c ∧ c ∈ nucleotideMap n ∧
        letterToNucleotide c = some n) ∧
      (∀ c m, c ∈ nucleotideMap m →
        letterToNucleotide c = some m ∧ ∀ k, c ∈ nucleotideMap k → k = m) := by
  refine ⟨Draw.index_lt _ _ (nucleotideMap_length_pos n), ?_, ?_⟩
  · obtain ⟨c, hc, hmem⟩ := getLetterFromNucleotide_some n g
    exact ⟨c, hc, hmem, letterToNucleotide_of_mem n c hmem⟩
  · intro c m hm
    refine ⟨letterToNucleotide_of_mem m c hm, ?_⟩
    intro k hk
    have h1 := letterToNucleotide_of_mem m c hm
    have h2 := letterToNucleotide_of_mem k c hk
    rw [h1] at h2
    exact (Option.some.inj h2).symm

/-! ## Population switch -/

/-- Claim C9: for each of the names yoruba, han and european and every prior
state, `setPopulation` returns true, makes the name the active population,
installs the matrix of that profile and leaves the profiles as they are. -/
theorem setPopulation_known (s : MultilingualGOCS)
    (hs : s.populationProfiles = populationProfiles) (name : String)
    (hname : name ∈ ["yoruba", "han", "european"]) :
    (setPopulation s name).1 = true ∧
      (setPopulation s name).2.activePopulation = name ∧
      (setPopulation s name).2.populationProfiles = s.populationProfiles ∧
      (∃ profile, (name, profile) ∈ s.populationProfiles ∧
        (setPopulation s name).2.transitionMatrix = some profile.transitionMatrix) ∧
      (name = "yoruba" → (setPopulation s name).2.transitionMatrix = some yorubaMatrix) ∧
      (name = "han" → (setPopulation s name).2.transitionMatrix = some hanMatrix) ∧
      (name = "european" →
        (setPopulation s name).2.transitionMatrix = some europeanMatrix) := by
  simp only [List.mem_cons, List.mem_singleton, List.not_mem_nil, or_false] at hname
  rcases hname with rfl | rfl | rfl <;>
    simp +decide [setPopulation, getProperty, hs, populationProfiles, List.lookup]

/-- Witness of C9: `setPopulation('yoruba')` on a new engine. -/
theorem setPopulation_known_witness :
    MultilingualGOCS.new.populationProfiles = populationProfiles ∧
      "yoruba" ∈ ["yoruba", "han", "european"] ∧
      (setPopulation MultilingualGOCS.new "yoruba").1 = true ∧
      (setPopulation MultilingualGOCS.new "yoruba").2.activePopulation = "yoruba" ∧
      (setPopulation MultilingualGOCS.new "yoruba").2.transitionMatrix = some yorubaMatrix :=
  have h := setPopulation_known MultilingualGOCS.new rfl "yoruba" (by decide)
  ⟨rfl, by decide, h.1, h.2.1, h.2.2.2.2.1 rfl⟩

/-- Claim C10 fails on the code: the name `constructor` is none of the three
profile names, yet `setPopulation('constructor')` returns true, makes
`constructor` the active population and replaces the matrix by `undefined`,
because the property read `populationProfiles['constructor']` finds the
inherited member of `Object.prototype`. -/
theorem setPopulation_constructor :
    setPopulation MultilingualGOCS.new "constructor" =
      (true, { populationProfiles := populationProfiles,
               activePopulation := "constructor",
               transitionMatrix := none }) := by
  rfl

theorem setPopulation_unknown (s : MultilingualGOCS)
    (hs : s.populationProfiles = populationProfiles) (name : String)
    (hname : name ∉ ["yoruba", "han", "european"]) (hproto : name ∉ objectPrototypeKeys) :
    setPopulation s name = (false, s) := by
  simp only [List.mem_cons, List.mem_singleton, List.not_mem_nil, or_false, not_or] at hname
  obtain ⟨h1, h2, h3⟩ := hname
  have hl : s.populationProfiles.lookup name = none := by
    simp [hs, populationProfiles, List.lookup, beq_eq_false_iff_ne.2 h1,
      beq_eq_false_iff_ne.2 h2, beq_eq_false_iff_ne.2 h3]
  simp [setPopulation, getProperty, hl, hproto]

/-! ## Word mutator -/

theorem mutateWordLoop_forall2 (M : TransitionMatrix) (maxMutations : Nat) (w : List Char) :
    ∀ (k : Nat) (g : Rand),
      List.Forall₂ MutatedFrom w (mutateWordLoop M maxMutations w k g).1 := by
  induction w with
  | nil => intro k g; simp [mutateWordLoop]
  | cons c rest ih =>
    intro k g
    simp only [mutateWordLoop]
    split
    · rename_i nucleotide hn
      split_ifs with h1 h2
      · obtain ⟨l, hl, hmem⟩ := getLetterFromNucleotide_some
          (getTransitionTarget M nucleotide g).1 (getTransitionTarget M nucleotide g).2
        simp only [hl, jsToString, List.singleton_append]
        refine List.Forall₂.cons (Or.inr ⟨?_, nucleotideMap_subset_mapped _ _ hmem⟩) (ih _ _)
        rw [hn]
        simp
      · exact List.Forall₂.cons (Or.inl rfl) (ih _ _)
      · exact List.Forall₂.cons (Or.inl rfl) (ih _ _)
    · exact List.Forall₂.cons (Or.inl rfl) (ih _ _)

theorem mutateWordLoop_changes (M : TransitionMatrix) (maxMutations : Nat) (w : List Char) :
    ∀ (k : Nat) (g : Rand), k ≤ maxMutations →
      ((mutateWordLoop M maxMutations w k g).1.zip w).countP (fun p => p.1 ≠ p.2) + k ≤
        maxMutations := by
  induction w with
  | nil => intro k g hk; simpa [mutateWordLoop] using hk
  | cons c rest ih =>
    intro k g hk
    simp only [mutateWordLoop]
    split
    · rename_i nucleotide hn
      split_ifs with h1 h2
      · obtain ⟨l, hl, hmem⟩ := getLetterFromNucleotide_some
          (getTransitionTarget M nucleotide g).1 (getTransitionTarget M nucleotide g).2
        simp only [hl, jsToString, List.singleton_append, List.zip_cons_cons]
        have := ih (k + 1) (getLetterFromNucleotide (getTransitionTarget M nucleotide g).1
          (getTransitionTarget M nucleotide g).2).2 h1
        have hle := List.countP_cons (fun p : Char × Char => decide (p.1 ≠ p.2)) (l, c)
          ((mutateWordLoop M maxMutations rest (k + 1)
            (getLetterFromNucleotide (getTransitionTarget M nucleotide g).1
              (getTransitionTarget M nucleotide g).2).2).1.zip rest)
        rw [hle]
        split_ifs <;> omega
      · have := ih k (getTransitionTarget M nucleotide g).2 hk
        simpa [List.countP_cons] using this
      · have := ih k g hk
        simpa [List.countP_cons] using this
    · have := ih k g hk
      simpa [List.countP_cons] using this

theorem forall2_getElem {R : Char → Char → Prop} {w out : List Char}
    (h : List.Forall₂ R w out) :
    ∀ (i : Nat) (c : Char), w[i]? = some c → ∃ o, out[i]? = some o ∧ R c o := by
  induction h with
  | nil => intro i c hc; simp at hc
  | cons hr _ ih =>
    intro i c hc
    cases i with
    | zero =>
      simp only [List.getElem?_cons_zero, Option.some.injEq] at hc
      subst hc
      exact ⟨_, by simp, hr⟩
    | succ j =>
      simp only [List.getElem?_cons_succ] at hc
      simpa using ih j c hc

theorem MutatedFrom.eq_of_unmapped {c o : Char} (h : MutatedFrom c o)
    (hc : toLowerCase c ∉ mappedLetters) : o = c := by
  rcases h with h | ⟨h, _⟩
  · exact h
  · exact absurd ((letterToNucleotide_eq_none_iff _).2 hc) h

theorem forall2_mutatedFrom_eq {w out : List Char} (h : List.Forall₂ MutatedFrom w out)
    (hw : ∀ c ∈ w, toLowerCase c ∉ mappedLetters) : out = w := by
  induction h with
  | nil => rfl
  | cons hr _ ih =>
    rw [hr.eq_of_unmapped (hw _ (List.mem_cons_self _ _)),
      ih (fun c hc => hw c (List.mem_cons_of_mem _ hc))]

/-- Claim C4: for every matrix, word, zone flag and random source,
`mutateWord` returns a string of the length of the word that differs from the
word in at most 1 position in a normal zone and at most 2 positions in a high
mutation zone. -/
theorem mutateWord_bounded (M : TransitionMatrix) (word : List Char)
    (isHighMutationZone : Bool) (g : Rand) :
    (mutateWord M word isHighMutationZone g).1.length = word.length ∧
      ((mutateWord M word isHighMutationZone g).1.zip word).countP (fun p => p.1 ≠ p.2) ≤
        (if isHighMutationZone then 2 else 1) := by
  constructor
  · exact (mutateWordLoop_forall2 M _ word 0 g).length_eq.symm
  · have := mutateWordLoop_changes M (if isHighMutationZone then 2 else 1) word 0 g
      (Nat.zero_le _)
    simpa [mutateWord] using this

/-- Claim C5: for every matrix, word, zone flag and random source,
`mutateWord` keeps in place every character whose lower-case form is none of
the nine mapped letters, and returns a word without mapped letters unchanged. -/
theorem mutateWord_unmapped_fixed (M : TransitionMatrix) (word : List Char)
    (isHighMutationZone : Bool) (g : Rand) :
    (∀ (i : Nat) (c : Char), word[i]? = some c → toLowerCase c ∉ mappedLetters →
        (mutateWord M word isHighMutationZone g).1[i]? = some c) ∧
      ((∀ c ∈ word, toLowerCase c ∉ mappedLetters) →
        (mutateWord M word isHighMutationZone g).1 = word) := by
  have h := mutateWordLoop_forall2 M (if isHighMutationZone then 2 else 1) word 0 g
  constructor
  · intro i c hc hun
    obtain ⟨o, ho, hr⟩ := forall2_getElem h i c hc
    rw [← hr.eq_of_unmapped hun]
    exact ho
  · intro hw
    exact forall2_mutatedFrom_eq h hw

/-! ## Evaluation with a constant random source -/

theorem Rand.const_head (d : Draw) : (Rand.const d).head = d := rfl

theorem Rand.const_tail (d : Draw) : (Rand.const d).tail = Rand.const d := rfl

theorem draw09_val : draw09.val = 9 / 10 := rfl

theorem getTransitionTarget_const09 (n : Nucleotide) :
    getTransitionTarget defaultMatrix n (Rand.const draw09) = (n, Rand.const draw09) := by
  cases n <;>
    simp [getTransitionTarget, selectTarget, TransitionMatrix.row, defaultMatrix,
      Rand.const_head, Rand.const_tail, draw09_val] <;>
    norm_num

theorem mutateWordLoop_const09 (maxMutations : Nat) (w : List Char) :
    ∀ k : Nat, mutateWordLoop defaultMatrix maxMutations w k (Rand.const draw09) =
      (w, Rand.const draw09) := by
  induction w with
  | nil => intro k; rfl
  | cons c rest ih =>
    intro k
    simp only [mutateWordLoop, getTransitionTarget_const09, ih, ne_eq, not_true_eq_false,
      if_false, ite_self]
    split <;> rfl

theorem mutateWord_const09 (w : List Char) (z : Bool) :
    mutateWord defaultMatrix w z (Rand.const draw09) = (w, Rand.const draw09) :=
  mutateWordLoop_const09 _ w 0

theorem not_silent_const09 : ¬ ((Rand.const draw09).head.val < 0.05) := by
  rw [Rand.const_head, draw09_val]
  norm_num

theorem draw0_val : draw0.val = 0 := rfl

theorem getTransitionTarget_const0_A :
    getTransitionTarget defaultMatrix A (Rand.const draw0) = (G, Rand.const draw0) := by
  simp [getTransitionTarget, selectTarget, TransitionMatrix.row, defaultMatrix,
    Rand.const_head, Rand.const_tail, draw0_val]
  norm_num

theorem getLetterFromNucleotide_const0_G :
    getLetterFromNucleotide G (Rand.const draw0) = (some 'r', Rand.const draw0) := by
  simp [getLetterFromNucleotide, nucleotideMap, Draw.index_draw0, Rand.const_head,
    Rand.const_tail]

theorem mutateWord_eat :
    (mutateWord defaultMatrix "eat".toList false (Rand.const draw0)).1 = "rat".toList ∧
      (mutateWord defaultMatrix "eat".toList true (Rand.const draw0)).1 = "rrt".toList ∧
      (mutateWord defaultMatrix "eat".toList true (Rand.const draw09)).1 = "eat".toList := by
  have he : letterToNucleotide (toLowerCase 'e') = some A := by decide
  have ha : letterToNucleotide (toLowerCase 'a') = some A := by decide
  have ht : letterToNucleotide (toLowerCase 't') = some C := by decide
  refine ⟨?_, ?_, by rw [mutateWord_const09]⟩ <;>
    simp +decide [mutateWord, mutateWordLoop, he, ha, ht, getTransitionTarget_const0_A,
      getLetterFromNucleotide_const0_G, jsToString]

theorem mutateWords_const09 (ws : List (List Char)) :
    mutateWords defaultMatrix ws (Rand.const draw09) = (ws, Rand.const draw09) := by
  induction ws with
  | nil => rfl
  | cons w rest ih => simp only [mutateWords, mutateWord_const09, ih]

theorem exceedsHalf_calculateDifference (w1 w2 : List Char) :
    exceedsHalf (calculateDifference w1 w2) =
      decide (max w1.length w2.length < 2 * diffCount w1 w2) := by
  unfold calculateDifference
  by_cases h : max w1.length w2.length = 0
  · have h1 : w1 = [] := by
      cases w1 with
      | nil => rfl
      | cons a l => simp at h
    have h2 : w2 = [] := by
      cases w2 with
      | nil => rfl
      | cons a l => simp at h
    subst h1 h2
    simp [exceedsHalf, diffCount]
  · simp only [h, if_false, exceedsHalf]
    generalize max w1.length w2.length = len at h ⊢
    generalize diffCount w1 w2 = d
    have hpos : (0 : ℚ) < (len : ℚ) := by exact_mod_cast Nat.pos_of_ne_zero h
    congr 1
    apply propext
    rw [gt_iff_lt, lt_div_iff₀ hpos]
    constructor
    · intro hlt
      have h2 : (len : ℚ) < 2 * (d : ℚ) := by
        norm_num at hlt
        linarith
      exact_mod_cast h2
    · intro hlt
      have h2 : (len : ℚ) < 2 * (d : ℚ) := by exact_mod_cast hlt
      norm_num
      linarith

theorem coherentWords_cons_cons (mutWord origWord : List Char) (ms os : List (List Char)) :
    coherentWords (mutWord :: ms) (origWord :: os) =
      (if max mutWord.length origWord.length < 2 * diffCount mutWord origWord then
          jsToString (firstChar origWord) ++ mutWord.drop 1
        else mutWord) :: coherentWords ms os := by
  simp [coherentWords, exceedsHalf_calculateDifference]

/-! ## Words and tokens -/

theorem splitSpace_ne_nil (s : List Char) : splitSpace s ≠ [] := by
  cases s with
  | nil => simp [splitSpace]
  | cons c cs =>
    simp only [splitSpace]
    split_ifs
    · simp
    · split <;> simp

theorem splitSpace_length (s : List Char) : (splitSpace s).length = s.count ' ' + 1 := by
  induction s with
  | nil => simp [splitSpace]
  | cons c cs ih =>
    simp only [splitSpace]
    split_ifs with h
    · subst h
      simp [ih]
    · have hc : (c == ' ') = false := beq_eq_false_iff_ne.2 h
      cases hsp : splitSpace cs with
      | nil => exact absurd hsp (splitSpace_ne_nil cs)
      | cons w ws =>
        rw [hsp] at ih
        simp only [List.length_cons] at ih ⊢
        rw [List.count_cons, hc]
        simpa using ih

theorem joinSpace_cons_cons (c : Char) (w : List Char) (ws : List (List Char)) :
    joinSpace ((c :: w) :: ws) = c :: joinSpace (w :: ws) := by
  cases ws <;> simp [joinSpace]

theorem joinSpace_splitSpace (s : List Char) : joinSpace (splitSpace s) = s := by
  induction s with
  | nil => simp [splitSpace, joinSpace]
  | cons c cs ih =>
    simp only [splitSpace]
    split_ifs with h
    · subst h
      cases hsp : splitSpace cs with
      | nil => exact absurd hsp (splitSpace_ne_nil cs)
      | cons w ws =>
        rw [hsp] at ih
        simp [joinSpace, ih]
    · cases hsp : splitSpace cs with
      | nil => exact absurd hsp (splitSpace_ne_nil cs)
      | cons w ws =>
        rw [hsp] at ih
        simp only [joinSpace_cons_cons, ih]

theorem joinSpace_count (ws : List (List Char)) :
    (joinSpace ws).count ' ' = (ws.map (List.count ' ')).sum + (ws.length - 1) := by
  induction ws with
  | nil => simp [joinSpace]
  | cons w rest ih =>
    cases rest with
    | nil => simp [joinSpace]
    | cons w2 ws =>
      simp only [joinSpace, List.count_append, List.count_cons_self, ih, List.map_cons,
        List.sum_cons, List.length_cons]
      omega

theorem MutatedFrom.space_iff {c o : Char} (h : MutatedFrom c o) : o = ' ' ↔ c = ' ' := by
  rcases h with h | ⟨h1, h2⟩
  · rw [h]
  · constructor
    · intro ho
      subst ho
      exact absurd h2 (by decide)
    · intro hc
      subst hc
      exact absurd (by decide) h1

theorem forall2_mutatedFrom_count {w out : List Char} (h : List.Forall₂ MutatedFrom w out) :
    out.count ' ' = w.count ' ' := by
  induction h with
  | nil => rfl
  | @cons c o l₁ l₂ hr _ ih =>
    rw [List.count_cons, List.count_cons, ih]
    congr 1
    have := hr.space_iff
    by_cases hc : c = ' '
    · simp [hc, this.2 hc]
    · have ho : ¬ o = ' ' := fun ho => hc (this.1 ho)
      simp [hc, ho]

theorem mutateWord_count (M : TransitionMatrix) (w : List Char) (z : Bool) (g : Rand) :
    (mutateWord M w z g).1.count ' ' = w.count ' ' :=
  forall2_mutatedFrom_count (mutateWordLoop_forall2 M _ w 0 g)

theorem mutateWords_counts (M : TransitionMatrix) (ws : List (List Char)) :
    ∀ g : Rand, (mutateWords M ws g).1.map (List.count ' ') = ws.map (List.count ' ') ∧
      (mutateWords M ws g).1.length = ws.length := by
  induction ws with
  | nil => intro g; simp [mutateWords]
  | cons w rest ih =>
    intro g
    simp [mutateWords, mutateWord_count, ih]

theorem mutateHaplotype_count (M : TransitionMatrix) (h : List Char) (g : Rand) :
    (mutateHaplotype M h g).1.count ' ' = h.count ' ' := by
  have hc := mutateWords_counts M (splitSpace h) g
  have hj := joinSpace_count (splitSpace h)
  rw [joinSpace_splitSpace] at hj
  simp only [mutateHaplotype, joinSpace_count, hc.1, hc.2]
  exact hj.symm

theorem swapAdjacent_perm (ws : List (List Char)) :
    ∀ pos : Nat, (swapAdjacent ws pos).Perm ws := by
  induction ws with
  | nil => intro pos; cases pos <;> simp [swapAdjacent]
  | cons a rest ih =>
    intro pos
    cases pos with
    | zero =>
      cases rest with
      | nil => simp [swapAdjacent]
      | cons b rest2 =>
        simp only [swapAdjacent]
        exact List.Perm.swap a b rest2
    | succ n =>
      simp only [swapAdjacent]
      exact List.Perm.cons a (ih n)

/-- The number of space-separated words of the text `joinSpace tokens`, for a
list of tokens that is not empty. -/
theorem wordCount_joinSpace (tokens : List (List Char)) (h : tokens ≠ []) :
    (splitSpace (joinSpace tokens)).length =
      (tokens.map (fun t => t.count ' ' + 1)).sum := by
  rw [splitSpace_length, joinSpace_count]
  have hlen : 0 < tokens.length := List.length_pos.2 h
  have hsum : (tokens.map (fun t => t.count ' ' + 1)).sum =
      (tokens.map (List.count ' ')).sum + tokens.length := by
    clear h hlen
    induction tokens with
    | nil => rfl
    | cons t rest ih =>
      simp only [List.map_cons, List.sum_cons, List.length_cons, ih]
      omega
  omega

theorem wordCount_mutateSentence (M : TransitionMatrix) (sentence : List Char) (g : Rand)
    (tokens : List (List Char))
    (ht : (mutateSentenceLoop M (splitSpace sentence) 0
      { mutatedWords := [], silentMutation := false, inHaplotype := false,
        currentHaplotype := [] } g).1.mutatedWords = tokens)
    (hne : tokens ≠ []) :
    (splitSpace (mutateSentence M sentence g).1).length =
      (tokens.map (fun t => t.count ' ' + 1)).sum := by
  simp only [mutateSentence, ht]
  split_ifs
  · have hp := swapAdjacent_perm tokens
      ((mutateSentenceLoop M (splitSpace sentence) 0
        { mutatedWords := [], silentMutation := false, inHaplotype := false,
          currentHaplotype := [] } g).2.head.index (tokens.length - 1))
    have hne2 : swapAdjacent tokens
        ((mutateSentenceLoop M (splitSpace sentence) 0
          { mutatedWords := [], silentMutation := false, inHaplotype := false,
            currentHaplotype := [] } g).2.head.index (tokens.length - 1)) ≠ [] := by
      intro h0
      rw [h0] at hp
      exact hne hp.symm.eq_nil
    rw [wordCount_joinSpace _ hne2]
    exact (hp.map _).sum_eq
  · exact wordCount_joinSpace tokens hne

theorem splitSpace_no_space (s : List Char) : ∀ w ∈ splitSpace s, w.count ' ' = 0 := by
  induction s with
  | nil => simp [splitSpace]
  | cons c cs ih =>
    simp only [splitSpace]
    split_ifs with h
    · intro w hw
      rcases List.mem_cons.1 hw with rfl | hw
      · rfl
      · exact ih w hw
    · cases hsp : splitSpace cs with
      | nil => exact absurd hsp (splitSpace_ne_nil cs)
      | cons w ws =>
        rw [hsp] at ih
        intro x hx
        rcases List.mem_cons.1 hx with rfl | hx
        · have hc : (c == ' ') = false := beq_eq_false_iff_ne.2 h
          rw [List.count_cons, hc, ih w (List.mem_cons_self _ _)]
          rfl
        · exact ih x (List.mem_cons_of_mem _ hx)

theorem coherentWords_length (ms os : List (List Char)) :
    (coherentWords ms os).length = ms.length := by
  induction ms generalizing os with
  | nil => simp [coherentWords]
  | cons m rest ih =>
    cases os with
    | nil => simp [coherentWords]
    | cons o os => simp [coherentWords, ih]

theorem jsToString_firstChar_count (o : List Char) (ho : o.count ' ' = 0) :
    (jsToString (firstChar o)).count ' ' = 0 := by
  cases o with
  | nil => decide
  | cons c cs =>
    have hc : c ≠ ' ' := by
      rintro rfl
      simp at ho
    have hb : (c == ' ') = false := beq_eq_false_iff_ne.2 hc
    simp [jsToString, firstChar, List.count_cons, hb]

theorem count_drop_eq_zero (m : List Char) (n : Nat) (hm : m.count ' ' = 0) :
    (m.drop n).count ' ' = 0 := by
  rw [List.count_eq_zero] at hm ⊢
  exact fun h => hm (List.mem_of_mem_drop h)

theorem coherentWords_no_space (ms os : List (List Char))
    (hm : ∀ w ∈ ms, w.count ' ' = 0) (ho : ∀ w ∈ os, w.count ' ' = 0) :
    ∀ w ∈ coherentWords ms os, w.count ' ' = 0 := by
  induction ms generalizing os with
  | nil => simp [coherentWords]
  | cons m rest ih =>
    cases os with
    | nil => simpa [coherentWords] using hm
    | cons o os =>
      intro w hw
      simp only [coherentWords, List.mem_cons] at hw
      rcases hw with rfl | hw
      · have h1 := hm m (List.mem_cons_self _ _)
        have h2 := ho o (List.mem_cons_self _ _)
        split_ifs
        · rw [List.count_append, jsToString_firstChar_count o h2, count_drop_eq_zero m 1 h1]
        · exact h1
      · exact ih os (fun w hw => hm w (List.mem_cons_of_mem _ hw))
          (fun w hw => ho w (List.mem_cons_of_mem _ hw)) w hw

theorem wordCount_makeCoherent (mutatedText originalText : List Char) :
    (splitSpace (makeCoherent mutatedText originalText)).length =
      (splitSpace mutatedText).length := by
  have hne : coherentWords (splitSpace mutatedText) (splitSpace originalText) ≠ [] := by
    intro h
    have := coherentWords_length (splitSpace mutatedText) (splitSpace originalText)
    rw [h] at this
    exact splitSpace_ne_nil mutatedText (List.length_eq_zero.1 this.symm)
  have hns := coherentWords_no_space (splitSpace mutatedText) (splitSpace originalText)
    (splitSpace_no_space mutatedText) (splitSpace_no_space originalText)
  rw [makeCoherent, wordCount_joinSpace _ hne, ← coherentWords_length _ (splitSpace originalText)]
  generalize coherentWords (splitSpace mutatedText) (splitSpace originalText) = ws at hns
  induction ws with
  | nil => rfl
  | cons w rest ih =>
    simp only [List.map_cons, List.sum_cons, List.length_cons,
      hns w (List.mem_cons_self _ _), ih (fun x hx => hns x (List.mem_cons_of_mem _ hx))]
    omega

/-! ## The end-to-end example -/

theorem mutateSentence_the_cat_sat :
    mutateSentence defaultMatrix "The cat sat.".toList (Rand.const draw09) =
      ("cat sat.".toList, Rand.const draw09) := by
  have hs : splitSpace "The cat sat.".toList = ["The".toList, "cat".toList, "sat.".toList] := by
    decide
  simp +decide only [mutateSentence, hs, mutateSentenceLoop, mutateWord_const09,
    not_silent_const09, Rand.const_tail, if_false, if_true]
  rfl

theorem makeCoherent_cat_sat :
    makeCoherent "cat sat.".toList "The cat sat.".toList = "Tat sat.".toList := by
  have h1 : splitSpace "cat sat.".toList = ["cat".toList, "sat.".toList] := by decide
  have h2 : splitSpace "The cat sat.".toList = ["The".toList, "cat".toList, "sat.".toList] := by
    decide
  rw [makeCoherent, h1, h2, coherentWords_cons_cons, coherentWords_cons_cons]
  decide

theorem mutateText_the_cat_sat_const09 :
    (mutateText defaultMatrix "The cat sat.".toList (Rand.const draw09)).1 =
      "Tat sat.".toList := by
  have hs : splitSentences "The cat sat.".toList = ["The cat sat.".toList] := by decide
  rw [mutateText, hs, mutateSentences, mutateSentence_the_cat_sat, makeCoherent_cat_sat]
  rfl

theorem wordCount_the_cat_sat (M : TransitionMatrix) (g : Rand) :
    (splitSpace (mutateText M "The cat sat.".toList g).1).length = 2 := by
  have hs : splitSentences "The cat sat.".toList = ["The cat sat.".toList] := by decide
  have hw : splitSpace "The cat sat.".toList = ["The".toList, "cat".toList, "sat.".toList] := by
    decide
  rw [mutateText, hs]
  simp only [mutateSentences, joinSpace]
  rw [wordCount_makeCoherent, wordCount_mutateSentence M _ g _ rfl]
  · simp +decide only [hw, mutateSentenceLoop, if_false, if_true, List.map_append,
      List.map_cons, List.map_nil, List.sum_append, List.sum_cons, List.sum_nil, List.nil_append,
      mutateWord_count]
  · simp +decide only [hw, mutateSentenceLoop, if_false, if_true]
    simp

/-- Claim C1 fails on the code at the claim's own example.  With the default
matrix and a random source whose draws are all 0.9 (no transition, no silent
mutation), `mutateText("The cat sat.")` is `Tat sat.`; for every matrix and
every random source the output has two words, while the input has three.  The
word `The` is a prefix of a haplotype and is put into the haplotype buffer,
which is never emitted, and the coherence filter then compares `cat` with
`The`. -/
theorem mutateText_the_cat_sat :
    (mutateText defaultMatrix "The cat sat.".toList (Rand.const draw09)).1 =
        "Tat sat.".toList ∧
      (∀ (M : TransitionMatrix) (g : Rand),
        (splitSpace (mutateText M "The cat sat.".toList g).1).length = 2) ∧
      (splitSpace "The cat sat.".toList).length = 3 :=
  ⟨mutateText_the_cat_sat_const09, wordCount_the_cat_sat, by decide⟩

/-! ## Haplotypes -/

theorem mutateSentence_once_upon_a_time_const09 :
    mutateSentence defaultMatrix "once upon a time".toList (Rand.const draw09) =
      ("upon a once upon a time".toList, Rand.const draw09) := by
  have hs : splitSpace "once upon a time".toList =
      ["once".toList, "upon".toList, "a".toList, "time".toList] := by decide
  simp +decide only [mutateSentence, hs, mutateSentenceLoop, mutateWord_const09,
    mutateHaplotype, mutateWords_const09, not_silent_const09, Rand.const_tail, if_false,
    if_true]
  rfl

theorem wordCount_once_upon_a_time (M : TransitionMatrix) (g : Rand) :
    (splitSpace (mutateSentence M "once upon a time".toList g).1).length = 6 := by
  have hs : splitSpace "once upon a time".toList =
      ["once".toList, "upon".toList, "a".toList, "time".toList] := by decide
  rw [wordCount_mutateSentence M _ g _ rfl]
  · simp +decide only [hs, mutateSentenceLoop, if_false, if_true, List.map_append,
      List.map_cons, List.map_nil, List.sum_append, List.sum_cons, List.sum_nil, List.nil_append,
      mutateWord_count, mutateHaplotype_count]
  · simp +decide only [hs, mutateSentenceLoop, if_false, if_true]
    simp

/-- Claim C2 fails on the code at the claim's own example: for every matrix
and every random source the output of `mutateSentence("once upon a time")` has
six space-separated words, not the four of the phrase; with the default matrix
and all draws equal to 0.9 it is `upon a once upon a time`.  While the phrase
is being accumulated its words `upon` and `a` are also emitted through
per-word mutation. -/
theorem mutateSentence_once_upon_a_time :
    (∀ (M : TransitionMatrix) (g : Rand),
        (splitSpace (mutateSentence M "once upon a time".toList g).1).length = 6) ∧
      (splitSpace "once upon a time".toList).length = 4 ∧
      (mutateSentence defaultMatrix "once upon a time".toList (Rand.const draw09)).1 =
        "upon a once upon a time".toList :=
  ⟨wordCount_once_upon_a_time, by decide, by rw [mutateSentence_once_upon_a_time_const09]⟩

/-! ## Coherence filter -/

theorem mutateText_double_space_const09 :
    (mutateText defaultMatrix "x  y".toList (Rand.const draw09)).1 = "x undefined".toList := by
  have hs : splitSentences "x  y".toList = ["x  y".toList] := by decide
  have hw : splitSpace "x  y".toList = ["x".toList, [], "y".toList] := by decide
  have hm : mutateSentence defaultMatrix "x  y".toList (Rand.const draw09) =
      ("x y".toList, Rand.const draw09) := by
    simp +decide only [mutateSentence, hw, mutateSentenceLoop, mutateWord_const09,
      not_silent_const09, Rand.const_tail, if_false, if_true]
    rfl
  have h1 : splitSpace "x y".toList = ["x".toList, "y".toList] := by decide
  have hc : makeCoherent "x y".toList "x  y".toList = "x undefined".toList := by
    rw [makeCoherent, h1, hw, coherentWords_cons_cons, coherentWords_cons_cons]
    decide
  rw [mutateText, hs, mutateSentences, hm, hc]
  rfl

/-- Claim C3 fails on the code when the original word is empty: in
`makeCoherent("a b", "a  c")` the word of index 1 is `b` against the empty
original word, the difference is 1, and the output word is `undefined`, whose
first character is not a character of the original word and whose other
characters are not those of `b`.  The case is reached from `mutateText`: with
the default matrix and all draws equal to 0.9, `mutateText("x  y")` is
`x undefined`. -/
theorem makeCoherent_empty_original :
    makeCoherent "a b".toList "a  c".toList = "a undefined".toList ∧
      (splitSpace "a b".toList)[1]? = some "b".toList ∧
      (splitSpace "a  c".toList)[1]? = some [] ∧
      exceedsHalf (calculateDifference "b".toList []) = true ∧
      (splitSpace (makeCoherent "a b".toList "a  c".toList))[1]? =
        some "undefined".toList ∧
      (mutateText defaultMatrix "x  y".toList (Rand.const draw09)).1 =
        "x undefined".toList := by
  have h1 : splitSpace "a b".toList = ["a".toList, "b".toList] := by decide
  have h2 : splitSpace "a  c".toList = ["a".toList, [], "c".toList] := by decide
  have h : makeCoherent "a b".toList "a  c".toList = "a undefined".toList := by
    rw [makeCoherent, h1, h2, coherentWords_cons_cons, coherentWords_cons_cons]
    decide
  rw [h, exceedsHalf_calculateDifference]
  exact ⟨rfl, by decide, by decide, by decide, by decide, mutateText_double_space_const09⟩

/-! ## Insertions and deletions -/

theorem take_append_cons_drop_eraseIdx (l : List Char) (c : Char) :
    ∀ i : Nat, i ≤ l.length → (l.take i ++ c :: l.drop i).eraseIdx i = l := by
  induction l with
  | nil =>
    intro i hi
    have : i = 0 := by simpa using hi
    subst this
    rfl
  | cons a rest ih =>
    intro i hi
    cases i with
    | zero => rfl
    | succ j =>
      have hj : j ≤ rest.length := by simpa using hi
      simp only [List.take_succ_cons, List.drop_succ_cons, List.cons_append,
        List.eraseIdx_cons_succ, ih j hj]

theorem applyIndel_deletion_drawDouble07 :
    (applyIndel "abcdefghij".toList 0 "deletion" (Rand.const drawDouble07)).1 =
      "abcdefgij".toList := by
  have hl : "abcdefghij".toList.length = 10 := by decide
  have h2 : (2 : Nat) < 10 := by decide
  simp only [applyIndel, hl, h2, and_self, if_true, gt_iff_lt, Rand.const_head,
    Draw.index_drawDouble07]
  decide

/-- Claim C14: for every word, position argument and random source,
`applyIndel(word, position, 'deletion')` removes exactly the character of index
`Math.floor(r * length)`, `r` being the next draw and the product the double
that IEEE arithmetic gives, when the word has more than two characters, and
returns the word unchanged otherwise; the position argument has no influence
on the result.  For the double 0.7 and a word of ten characters the product
is the double 7 and the character of index 7 is removed. -/
theorem applyIndel_deletion (word : List Char) (position : Nat) (g : Rand) :
    (2 < word.length →
        (applyIndel word position "deletion" g).1 =
            word.eraseIdx ⌊roundDouble (g.head.val * (word.length : ℚ))⌋₊ ∧
          ⌊roundDouble (g.head.val * (word.length : ℚ))⌋₊ < word.length ∧
          (applyIndel word position "deletion" g).1.length = word.length - 1) ∧
      (word.length ≤ 2 → (applyIndel word position "deletion" g).1 = word) ∧
      (∀ position2 : Nat,
        applyIndel word position2 "deletion" g = applyIndel word position "deletion" g) ∧
      (applyIndel "abcdefghij".toList position "deletion" (Rand.const drawDouble07)).1 =
        "abcdefgij".toList := by
  refine ⟨?_, ?_, fun _ => rfl, applyIndel_deletion_drawDouble07⟩
  · intro h
    have hlt : g.head.index word.length < word.length :=
      Draw.index_lt _ _ (by omega)
    have heq : (applyIndel word position "deletion" g).1 =
        word.eraseIdx (g.head.index word.length) := by
      simp [applyIndel, h, List.eraseIdx_eq_take_drop_succ]
    refine ⟨heq, hlt, ?_⟩
    rw [heq, List.length_eraseIdx, if_pos hlt]
  · intro h
    have h2 : ¬ 2 < word.length := by omega
    simp +decide [applyIndel, h2]

/-- Claim C15: for every word, the empty word included, every position
argument and every random source, `applyIndel(word, position, 'insertion')`
inserts one of the nine mapped letters at an index between 0 and the length of
the word; the result is one character longer, and erasing the inserted
character gives the word back. -/
theorem applyIndel_insertion (word : List Char) (position : Nat) (g : Rand) :
    ∃ (i : Nat) (c : Char), i ≤ word.length ∧ c ∈ mappedLetters ∧
      (applyIndel word position "insertion" g).1 = word.take i ++ c :: word.drop i ∧
      (applyIndel word position "insertion" g).1.length = word.length + 1 ∧
      ((applyIndel word position "insertion" g).1).eraseIdx i = word := by
  have hlt : g.head.index (word.length + 1) < word.length + 1 :=
    Draw.index_lt _ _ (Nat.succ_pos _)
  have hle : g.head.index (word.length + 1) ≤ word.length := Nat.lt_succ_iff.1 hlt
  obtain ⟨c, hc, hmem⟩ :=
    getLetterFromNucleotide_some (nucleotideAt (g.tail.head.index 4)) g.tail.tail
  have heq : (applyIndel word position "insertion" g).1 =
      word.take (g.head.index (word.length + 1)) ++
        c :: word.drop (g.head.index (word.length + 1)) := by
    simp +decide [applyIndel, hc, jsToString]
  refine ⟨g.head.index (word.length + 1), c, hle, nucleotideMap_subset_mapped _ _ hmem, heq,
    ?_, ?_⟩
  · rw [heq]
    simp only [List.length_append, List.length_cons, List.length_take, List.length_drop]
    omega
  · rw [heq]
    exact take_append_cons_drop_eraseIdx word c _ hle

/-! ## Pronounceability repair -/

/-- Claim C17 fails on the code for a cluster of four stop consonants:
`ensurePronounceability("pppp")` is `peppp`, which still contains the three
consecutive stop consonants `ppp`: the vowel goes into the first match `ppp`,
and the two consonants left of that match meet the consonant after it. -/
theorem ensurePronounceability_pppp :
    ensurePronounceability "pppp".toList = "peppp".toList ∧
      hasStopCluster (ensurePronounceability "pppp".toList) = true := by
  decide

/-! ## Coherence filter: the bound of one half -/

/-- Claim C18 fails as stated: `makeCoherent("xyz", "abc")` is `ayz`, whose
difference from `abc` is 2/3, above 0.5.  The filter restores the first
character of a word that is too different and nothing else, which is its
design. -/
theorem makeCoherent_xyz_abc :
    makeCoherent "xyz".toList "abc".toList = "ayz".toList ∧
      calculateDifference "ayz".toList "abc".toList = some (2 / 3) ∧
      exceedsHalf (calculateDifference "ayz".toList "abc".toList) = true := by
  have h1 : splitSpace "xyz".toList = ["xyz".toList] := by decide
  have h2 : splitSpace "abc".toList = ["abc".toList] := by decide
  refine ⟨?_, ?_, ?_⟩
  · rw [makeCoherent, h1, h2, coherentWords_cons_cons]
    decide
  · have hd : diffCount "ayz".toList "abc".toList = 2 := by decide
    have hl : max "ayz".toList.length "abc".toList.length = 3 := by decide
    simp only [calculateDifference, hd, hl]
    norm_num
  · rw [exceedsHalf_calculateDifference]
    decide

/-! ## Inputs without mapped letters -/

theorem mutateSentence_by (M : TransitionMatrix) (g : Rand) :
    mutateSentence M "by".toList g = ([], g) := by
  have hs : splitSpace "by".toList = ["by".toList] := by decide
  simp +decide only [mutateSentence, hs, mutateSentenceLoop, if_false, if_true]
  rfl

/-- Claim C19 fails on the code: `by` has no white space and no mapped letter,
yet `mutateText("by")` is `b` for every matrix and every random source.  The
word is a prefix of the haplotype `by the shore` and goes into the haplotype
buffer, which is never emitted; the coherence filter then restores the first
character only.  (The empty string is returned unchanged.) -/
theorem mutateText_by (M : TransitionMatrix) (g : Rand) :
    (mutateText M "by".toList g).1 = "b".toList ∧
      (∀ c ∈ "by".toList, toLowerCase c ∉ mappedLetters ∧ isWhiteSpace c = false) ∧
      (mutateText M [] g).1 = [] := by
  have hs : splitSentences "by".toList = ["by".toList] := by decide
  have h1 : splitSpace ([] : List Char) = [[]] := by decide
  have h2 : splitSpace "by".toList = ["by".toList] := by decide
  have hc : makeCoherent [] "by".toList = "b".toList := by
    rw [makeCoherent, h1, h2, coherentWords_cons_cons]
    decide
  have he : mutateSentence M [] g = ([], g) := by
    simp +decide only [mutateSentence, h1, mutateSentenceLoop, if_false, if_true]
    rfl
  have hce : makeCoherent [] [] = [] := by
    rw [makeCoherent, h1, coherentWords_cons_cons]
    decide
  refine ⟨?_, by decide, ?_⟩
  · rw [mutateText, hs, mutateSentences, mutateSentence_by, hc]
    rfl
  · have hse : splitSentences [] = [[]] := by decide
    rw [mutateText, hse, mutateSentences, he, hce]
    rfl

/-! ## The matrix table -/

theorem toFixed0_natCast (x : ℚ) (n : Nat) (h : x = (n : ℚ)) :
    toFixed0 x = (Nat.repr n).toList := by
  subst h
  have h0 : ¬ ((n : ℚ) < 0) := not_lt.2 (Nat.cast_nonneg n)
  have habs : |(n : ℚ)| = (n : ℚ) := abs_of_nonneg (Nat.cast_nonneg n)
  have hfloor : ⌊(n : ℚ) + 1 / 2⌋₊ = n := by
    rw [Nat.floor_eq_iff (by positivity)]
    constructor <;> norm_num
  simp only [toFixed0, h0, if_false, habs, hfloor, List.nil_append]

theorem toFixed0_forty : toFixed0 ((0.4 : ℚ) * 100) = "40".toList := by
  rw [toFixed0_natCast _ 40 (by norm_num)]
  decide

theorem toFixed0_ten : toFixed0 ((0.1 : ℚ) * 100) = "10".toList := by
  rw [toFixed0_natCast _ 10 (by norm_num)]
  decide

theorem visualizeCells_of_percent (targets : Row) (a g c t : List Char)
    (ha : percentText targets A = a) (hg : percentText targets G = g)
    (hc : percentText targets C = c) (ht : percentText targets T = t) :
    visualizeCells targets [A, G, C, T] =
      ' ' :: (a ++ ("%  | ".toList ++ (g ++ ("%  | ".toList ++ (c ++
        ("%  | ".toList ++ (t ++ "%  |".toList))))))) := by
  simp only [visualizeCells, ha, hg, hc, ht]
  simp

theorem visualizeLine_default_A :
    visualizeLine A defaultMatrix.rowA = " A | 40%  | 40%  | 10%  | 10%  |\n".toList := by
  rw [visualizeLine, visualizeCells_of_percent _ "40".toList "40".toList "10".toList "10".toList]
  · decide
  all_goals
    simp +decide only [percentText, Row.prob, defaultMatrix, if_true, if_false,
      toFixed0_forty, toFixed0_ten]

theorem visualizeLine_default_G :
    visualizeLine G defaultMatrix.rowG = " G | 40%  | 40%  | 10%  | 10%  |\n".toList := by
  rw [visualizeLine, visualizeCells_of_percent _ "40".toList "40".toList "10".toList "10".toList]
  · decide
  all_goals
    simp +decide only [percentText, Row.prob, defaultMatrix, if_true, if_false,
      toFixed0_forty, toFixed0_ten]

theorem visualizeLine_default_C :
    visualizeLine C defaultMatrix.rowC = " C | 10%  | 10%  | 40%  | 40%  |\n".toList := by
  rw [visualizeLine, visualizeCells_of_percent _ "10".toList "10".toList "40".toList "40".toList]
  · decide
  all_goals
    simp +decide only [percentText, Row.prob, defaultMatrix, if_true, if_false,
      toFixed0_forty, toFixed0_ten]

theorem visualizeLine_default_T :
    visualizeLine T defaultMatrix.rowT = " T | 10%  | 10%  | 40%  | 40%  |\n".toList := by
  rw [visualizeLine, visualizeCells_of_percent _ "10".toList "10".toList "40".toList "40".toList]
  · decide
  all_goals
    simp +decide only [percentText, Row.prob, defaultMatrix, if_true, if_false,
      toFixed0_forty, toFixed0_ten]

set_option maxRecDepth 4000 in
theorem visualizeMatrix_defaultMatrix :
    visualizeMatrix defaultMatrix =
      ("GOCS Transition Matrix:\n\n" ++
        "   | A    | G    | C    | T    |\n" ++
        "---|------|------|------|------|\n" ++
        " A | 40%  | 40%  | 10%  | 10%  |\n" ++
        " G | 40%  | 40%  | 10%  | 10%  |\n" ++
        " C | 10%  | 10%  | 40%  | 40%  |\n" ++
        " T | 10%  | 10%  | 40%  | 40%  |\n").toList := by
  rw [visualizeMatrix, visualizeLine_default_A, visualizeLine_default_G,
    visualizeLine_default_C, visualizeLine_default_T]
  decide

/-- Claim C12 fails as stated: the text that `visualizeMatrix()` returns on the
default engine has eight lines, not six, and its first line is the title
`GOCS Transition Matrix:`, not the header of the table. -/
theorem visualizeMatrix_first_line :
    (splitLines (visualizeMatrix defaultMatrix)).head? =
        some "GOCS Transition Matrix:".toList ∧
      (splitLines (visualizeMatrix defaultMatrix)).head? ≠
        some "   | A    | G    | C    | T    |".toList ∧
      (splitLines (visualizeMatrix defaultMatrix)).length ≠ 6 := by
  rw [visualizeMatrix_defaultMatrix]
  decide

/-- Claim C12, amended: on the default engine `visualizeMatrix()` returns
eight lines, each ended by a line break: the title `GOCS Transition Matrix:`,
an empty line, and a table of six lines, namely the header, a rule, and the
four rows A, G, C, T in this order, each with the probabilities of the row in
the column order A, G, C, T as whole percentages. -/
theorem visualizeMatrix_default_table :
    splitLines (visualizeMatrix defaultMatrix) =
      ["GOCS Transition Matrix:".toList,
       [],
       "   | A    | G    | C    | T    |".toList,
       "---|------|------|------|------|".toList,
       " A | 40%  | 40%  | 10%  | 10%  |".toList,
       " G | 40%  | 40%  | 10%  | 10%  |".toList,
       " C | 10%  | 10%  | 40%  | 40%  |".toList,
       " T | 10%  | 10%  | 40%  | 40%  |".toList,
       []] := by
  rw [visualizeMatrix_defaultMatrix]
  decide

/-! ## The haplotype buffer at the end of a sentence -/

theorem wordCount_mutateSentence_the_cat_sat (M : TransitionMatrix) (g : Rand) :
    (splitSpace (mutateSentence M "The cat sat.".toList g).1).length = 2 := by
  have hw : splitSpace "The cat sat.".toList = ["The".toList, "cat".toList, "sat.".toList] := by
    decide
  rw [wordCount_mutateSentence M _ g _ rfl]
  · simp +decide only [hw, mutateSentenceLoop, if_false, if_true, List.map_append,
      List.map_cons, List.map_nil, List.sum_append, List.sum_cons, List.sum_nil, List.nil_append,
      mutateWord_count]
  · simp +decide only [hw, mutateSentenceLoop, if_false, if_true]
    simp

/-- Claim C13 fails on the code at the claim's own example: in
`mutateSentence("The cat sat.")` the word `The` starts the accumulation, the
buffer never equals a haplotype, and the buffer is not emitted at the end of
the sentence.  With the default matrix and all draws equal to 0.9 the output
is `cat sat.`; for every matrix and every random source the output has two
words, one fewer than the input. -/
theorem mutateSentence_partial_buffer_dropped :
    (mutateSentence defaultMatrix "The cat sat.".toList (Rand.const draw09)).1 =
        "cat sat.".toList ∧
      (∀ (M : TransitionMatrix) (g : Rand),
        (splitSpace (mutateSentence M "The cat sat.".toList g).1).length = 2) ∧
      (splitSpace "The cat sat.".toList).length = 3 ∧
      haplotypeList.any (fun h =>
        ("The".toList.map toLowerCase).isPrefixOf (h.map toLowerCase)) = true :=
  ⟨by rw [mutateSentence_the_cat_sat], wordCount_mutateSentence_the_cat_sat, by decide,
    by decide⟩

/-! ## The matrix of a new engine -/

/-- Claim C16 fails on the code in the freshly constructed state: the active
population is `european`, but the matrix is the default matrix of the base
constructor, which differs from the matrix of the profile `european` in the
rows C and T (0.4 against 0.5 for the transition from C to T).  The constructor sets
`activePopulation` without installing the matrix, which `setPopulation` does.
After `setPopulation('constructor')` no profile is active at all. -/
theorem new_engine_matrix_not_of_active_profile :
    MultilingualGOCS.new.activePopulation = "european" ∧
      MultilingualGOCS.new.transitionMatrix = some defaultMatrix ∧
      (∃ profile, getProperty MultilingualGOCS.new.populationProfiles "european" =
          ProfileValue.own profile ∧
        profile.transitionMatrix = europeanMatrix ∧
        MultilingualGOCS.new.transitionMatrix ≠ some profile.transitionMatrix) ∧
      (defaultMatrix.row C).prob T = some 0.4 ∧
      (europeanMatrix.row C).prob T = some 0.5 ∧
      (setPopulation MultilingualGOCS.new "constructor").2.transitionMatrix = none ∧
      getProperty MultilingualGOCS.new.populationProfiles
        (setPopulation MultilingualGOCS.new "constructor").2.activePopulation =
          ProfileValue.inherited := by
  have hne : defaultMatrix ≠ europeanMatrix := by
    intro h
    have h2 : (defaultMatrix.row C).prob T = (europeanMatrix.row C).prob T := by rw [h]
    simp [TransitionMatrix.row, Row.prob, defaultMatrix, europeanMatrix] at h2
    norm_num at h2
  refine ⟨rfl, rfl, ⟨_, rfl, rfl, ?_⟩, ?_, ?_, rfl, rfl⟩
  · intro h
    exact hne (Option.some.inj h)
  · simp [TransitionMatrix.row, Row.prob, defaultMatrix]
  · simp [TransitionMatrix.row, Row.prob, europeanMatrix]

/-! ## Vocabulary replacement -/

theorem Rand.cons_head (d : Draw) (g : Rand) : (Rand.cons d g).head = d := rfl

theorem Rand.cons_tail (d : Draw) (g : Rand) : (Rand.cons d g).tail = g := rfl

theorem draw01_val : draw01.val = 1 / 10 := rfl

theorem mutateWordLoop_of_fixed (M : TransitionMatrix) (d : Draw)
    (h : ∀ n, getTransitionTarget M n (Rand.const d) = (n, Rand.const d))
    (maxMutations : Nat) (w : List Char) :
    ∀ k : Nat, mutateWordLoop M maxMutations w k (Rand.const d) = (w, Rand.const d) := by
  induction w with
  | nil => intro k; rfl
  | cons c rest ih =>
    intro k
    simp only [mutateWordLoop, h, ih, ne_eq, not_true_eq_false, if_false, ite_self]
    split <;> rfl

theorem getTransitionTarget_european_const09 (n : Nucleotide) :
    getTransitionTarget europeanMatrix n (Rand.const draw09) = (n, Rand.const draw09) := by
  cases n <;>
    simp [getTransitionTarget, selectTarget, TransitionMatrix.row, europeanMatrix,
      Rand.const_head, Rand.const_tail, draw09_val] <;>
    norm_num

theorem mutateWord_european_const09 (w : List Char) (z : Bool) :
    mutateWord europeanMatrix w z (Rand.const draw09) = (w, Rand.const draw09) :=
  mutateWordLoop_of_fixed europeanMatrix draw09 getTransitionTarget_european_const09 _ w 0

theorem setPopulation_new_european :
    setPopulation MultilingualGOCS.new "european" =
      (true, { populationProfiles := populationProfiles, activePopulation := "european",
               transitionMatrix := some europeanMatrix }) := by
  rfl

theorem mutateSentence_i_need_eau :
    mutateSentence europeanMatrix "I need eau.".toList (Rand.const draw09) =
      ("need eau.".toList, Rand.const draw09) := by
  have hs : splitSpace "I need eau.".toList = ["I".toList, "need".toList, "eau.".toList] := by
    decide
  simp +decide only [mutateSentence, hs, mutateSentenceLoop, mutateWord_european_const09,
    not_silent_const09, Rand.const_tail, if_false, if_true]
  rfl

theorem makeCoherent_need_eau :
    makeCoherent "need eau.".toList "I need eau.".toList = "Ieed nau.".toList := by
  have h1 : splitSpace "need eau.".toList = ["need".toList, "eau.".toList] := by decide
  have h2 : splitSpace "I need eau.".toList = ["I".toList, "need".toList, "eau.".toList] := by
    decide
  rw [makeCoherent, h1, h2, coherentWords_cons_cons, coherentWords_cons_cons]
  decide

theorem mutateText_i_need_eau :
    mutateText europeanMatrix "I need eau.".toList (Rand.const draw09) =
      ("Ieed nau.".toList, Rand.const draw09) := by
  have hs : splitSentences "I need eau.".toList = ["I need eau.".toList] := by decide
  rw [mutateText, hs, mutateSentences, mutateSentence_i_need_eau, makeCoherent_need_eau]
  rfl

/-- The random source of the example: five draws 0.1 for the five vocabulary
items, then draws 0.9. -/
theorem replaceVocabulary_i_need_water :
    replaceVocabulary
        [⟨"water", "eau"⟩, ⟨"house", "maison"⟩, ⟨"person", "personne"⟩, ⟨"book", "livre"⟩,
          ⟨"good", "bon"⟩]
        "I need water.".toList
        (Rand.cons draw01 (Rand.cons draw01 (Rand.cons draw01 (Rand.cons draw01
          (Rand.cons draw01 (Rand.const draw09)))))) =
      ("I need eau.".toList, Rand.const draw09) := by
  have hd : draw01.val < 0.3 := by
    rw [draw01_val]
    norm_num
  have h1 : replaceWord "water".toList "eau".toList "I need water.".toList =
      "I need eau.".toList := by decide
  have h2 : replaceWord "house".toList "maison".toList "I need eau.".toList =
      "I need eau.".toList := by decide
  have h3 : replaceWord "person".toList "personne".toList "I need eau.".toList =
      "I need eau.".toList := by decide
  have h4 : replaceWord "book".toList "livre".toList "I need eau.".toList =
      "I need eau.".toList := by decide
  have h5 : replaceWord "good".toList "bon".toList "I need eau.".toList =
      "I need eau.".toList := by decide
  rw [replaceVocabulary, Rand.cons_head, if_pos hd, h1, Rand.cons_tail,
    replaceVocabulary, Rand.cons_head, if_pos hd, h2, Rand.cons_tail,
    replaceVocabulary, Rand.cons_head, if_pos hd, h3, Rand.cons_tail,
    replaceVocabulary, Rand.cons_head, if_pos hd, h4, Rand.cons_tail,
    replaceVocabulary, Rand.cons_head, if_pos hd, h5, Rand.cons_tail, replaceVocabulary]

theorem switchOnWords_i_need_water (s : MultilingualGOCS)
    (hs : s.populationProfiles = populationProfiles) (g : Rand) :
    switchOnWords (splitWhiteSpace "I need water.".toList) s g = (s, g) := by
  have hw : splitWhiteSpace "I need water.".toList =
      ["I".toList, "need".toList, "water.".toList] := by decide
  rw [hw]
  simp +decide only [switchOnWords, hs, populationProfiles, switchOnProfiles,
    switchOnVocabulary, if_false]

/-- Claim C11 fails on the code at the claim's own example.  With the active
population `european`, five draws 0.1 for the vocabulary items and all other
draws 0.9, the vocabulary pass turns `I need water.` into `I need eau.`, but
`mutateText` returns `Ieed nau.`, which contains neither `eau` nor `water`:
the word `I` is a prefix of the haplotype `in the beginning` and is lost in
the haplotype buffer, and the coherence filter then compares `eau.` with
`need` and overwrites its first character. -/
theorem multilingual_mutateText_i_need_water :
    ((setPopulation MultilingualGOCS.new "european").2.mutateText "I need water.".toList
        (Rand.cons draw01 (Rand.cons draw01 (Rand.cons draw01 (Rand.cons draw01
          (Rand.cons draw01 (Rand.const draw09))))))).map (fun r => r.1) =
        some "Ieed nau.".toList ∧
      ¬ ("eau".toList <:+: "Ieed nau.".toList) ∧
      (setPopulation MultilingualGOCS.new "european").2.activePopulation = "european" := by
  refine ⟨?_, by decide, rfl⟩
  rw [setPopulation_new_european]
  simp only [MultilingualGOCS.mutateText]
  rw [switchOnWords_i_need_water _ rfl]
  have hp : getProperty populationProfiles "european" =
      ProfileValue.own
        { transitionMatrix := europeanMatrix,
          vocabulary := [⟨"water", "eau"⟩, ⟨"house", "maison"⟩, ⟨"person", "personne"⟩,
            ⟨"book", "livre"⟩, ⟨"good", "bon"⟩] } := by
    rfl
  simp only [hp, replaceVocabulary_i_need_water, mutateText_i_need_eau, Option.map_some']

/-! ## Silencing -/

theorem getTransitionTarget_const0_G :
    getTransitionTarget defaultMatrix G (Rand.const draw0) = (A, Rand.const draw0) := by
  simp [getTransitionTarget, selectTarget, TransitionMatrix.row, defaultMatrix,
    Rand.const_head, Rand.const_tail, draw0_val]
  norm_num

theorem getLetterFromNucleotide_const0_A :
    getLetterFromNucleotide A (Rand.const draw0) = (some 'e', Rand.const draw0) := by
  simp [getLetterFromNucleotide, nucleotideMap, Draw.index_draw0, Rand.const_head,
    Rand.const_tail]

theorem mutateWord_very_const0 (z : Bool) :
    mutateWord defaultMatrix ['v', 'e', 'r', 'y'] z (Rand.const draw0) =
      (if z then ['v', 'r', 'e', 'y'] else ['v', 'r', 'r', 'y'], Rand.const draw0) := by
  have hv : letterToNucleotide (toLowerCase 'v') = none := by decide
  have he : letterToNucleotide (toLowerCase 'e') = some A := by decide
  have hr : letterToNucleotide (toLowerCase 'r') = some G := by decide
  have hy : letterToNucleotide (toLowerCase 'y') = none := by decide
  cases z <;>
    simp +decide [mutateWord, mutateWordLoop, hv, he, hr, hy, getTransitionTarget_const0_A,
      getTransitionTarget_const0_G, getLetterFromNucleotide_const0_A,
      getLetterFromNucleotide_const0_G, jsToString]

theorem mutateWord_vrry_const0 :
    mutateWord defaultMatrix "vrry".toList true (Rand.const draw0) =
      ("veey".toList, Rand.const draw0) := by
  have hv : letterToNucleotide (toLowerCase 'v') = none := by decide
  have hr : letterToNucleotide (toLowerCase 'r') = some G := by decide
  have hy : letterToNucleotide (toLowerCase 'y') = none := by decide
  simp +decide [mutateWord, mutateWordLoop, hv, hr, hy, getTransitionTarget_const0_G,
    getLetterFromNucleotide_const0_A, jsToString]

theorem silent_const0 : (Rand.const draw0).head.val < 0.05 := by
  rw [Rand.const_head, draw0_val]
  norm_num

theorem mutateSentence_very_very_const0 :
    mutateSentence defaultMatrix "very very".toList (Rand.const draw0) =
      ("vrry vrry".toList, Rand.const draw0) := by
  have hs : splitSpace "very very".toList = ["very".toList, "very".toList] := by decide
  simp +decide only [mutateSentence, hs, mutateSentenceLoop, mutateWord_very_const0,
    silent_const0, Rand.const_tail, if_false, if_true]
  rfl

theorem isMethylated_very_const0 :
    isMethylated "very".toList methylationPatterns (Rand.const draw0) =
      (true, Rand.const draw0) := by
  have ht : testAlternatives
      ["very".toList, "really".toList, "quite".toList, "just".toList, "simply".toList,
       "actually".toList, "literally".toList] none "very".toList = true := by decide
  have hd : (Rand.const draw0).head.val < 0.7 := by
    rw [Rand.const_head, draw0_val]
    norm_num
  simp only [methylationPatterns, isMethylated, ht, hd, if_true, Rand.const_tail]

theorem methylate_very_very_const0 :
    methylate ["very".toList, "very".toList] [] (Rand.const draw0) =
      (["very".toList, "very".toList], Rand.const draw0) := by
  simp only [methylate, isMethylated_very_const0, if_true, List.nil_append,
    List.cons_append]

theorem knockOn_vrry_const0 :
    knockOn defaultMatrix "*vrry*".toList ["*vrry*".toList] (Rand.const draw0) =
      (["*vrry*".toList, "veey".toList], Rand.const draw0) := by
  have hm : isMarked "*vrry*".toList = true := by decide
  have hd : (Rand.const draw0).head.val < 0.6 := by
    rw [Rand.const_head, draw0_val]
    norm_num
  have hf : "*vrry*".toList.filter (fun c => c ≠ '*') = "vrry".toList := by decide
  rw [knockOn, if_pos hm, if_pos hd, hf, Rand.const_tail]
  simp only [mutateWord_vrry_const0, knockOn]

/-- Claim C20 fails on the code when two silenced words follow each other.
With the default matrix and all draws equal to 0, both words of `very very`
are recorded as silenced and both mutated words are wrapped, but the last loop
then replaces the second word by the mutation of the word without its `*`
characters and does not wrap it again: the output is `*vrry* veey`, whose word
of index 1 is aligned with the silenced word `very` and carries no marker. -/
theorem epigenetic_marker_lost :
    (epigeneticMutateSentence defaultMatrix "very very".toList (Rand.const draw0)).1 =
        "*vrry* veey".toList ∧
      (methylate (splitSpace "very very".toList) [] (Rand.const draw0)).1 =
        ["very".toList, "very".toList] ∧
      (splitSpace "very very".toList)[min 1 ((splitSpace "very very".toList).length - 1)]? =
        some "very".toList ∧
      (splitSpace (epigeneticMutateSentence defaultMatrix "very very".toList
        (Rand.const draw0)).1)[1]? = some "veey".toList ∧
      isMarked "veey".toList = false := by
  have hs : splitSpace "very very".toList = ["very".toList, "very".toList] := by decide
  have hb : splitSpace "vrry vrry".toList = ["vrry".toList, "vrry".toList] := by decide
  have hmark : markWords ["very".toList, "very".toList] ["very".toList, "very".toList]
      ["vrry".toList, "vrry".toList] 0 = ["*vrry*".toList, "*vrry*".toList] := by decide
  have h : epigeneticMutateSentence defaultMatrix "very very".toList (Rand.const draw0) =
      ("*vrry* veey".toList, Rand.const draw0) := by
    simp only [epigeneticMutateSentence, hs, methylate_very_very_const0,
      mutateSentence_very_very_const0, hb, hmark, knockOn_vrry_const0]
    rfl
  rw [h, hs, methylate_very_very_const0]
  decide

/-! ## Splitting a joined list of words -/

theorem splitSpace_of_no_space (w : List Char) (hw : w.count ' ' = 0) : splitSpace w = [w] := by
  induction w with
  | nil => rfl
  | cons c cs ih =>
    have hc : c ≠ ' ' := by
      rintro rfl
      simp at hw
    have hcs : cs.count ' ' = 0 := by
      rw [List.count_cons, beq_eq_false_iff_ne.2 hc] at hw
      simpa using hw
    simp [splitSpace, hc, ih hcs]

theorem splitSpace_append_space (w : List Char) (hw : w.count ' ' = 0) (s : List Char) :
    splitSpace (w ++ ' ' :: s) = w :: splitSpace s := by
  induction w with
  | nil => simp [splitSpace]
  | cons c cs ih =>
    have hc : c ≠ ' ' := by
      rintro rfl
      simp at hw
    have hcs : cs.count ' ' = 0 := by
      rw [List.count_cons, beq_eq_false_iff_ne.2 hc] at hw
      simpa using hw
    simp [splitSpace, hc, ih hcs]

theorem splitSpace_joinSpace (ws : List (List Char)) (hne : ws ≠ [])
    (h : ∀ w ∈ ws, w.count ' ' = 0) : splitSpace (joinSpace ws) = ws := by
  induction ws with
  | nil => exact absurd rfl hne
  | cons w rest ih =>
    cases rest with
    | nil => exact splitSpace_of_no_space w (h w (List.mem_cons_self _ _))
    | cons w2 ws =>
      simp only [joinSpace]
      rw [splitSpace_append_space w (h w (List.mem_cons_self _ _)),
        ih (List.cons_ne_nil _ _) (fun x hx => h x (List.mem_cons_of_mem _ hx))]

theorem splitSpace_makeCoherent (mutatedText originalText : List Char) :
    splitSpace (makeCoherent mutatedText originalText) =
      coherentWords (splitSpace mutatedText) (splitSpace originalText) := by
  have hne : coherentWords (splitSpace mutatedText) (splitSpace originalText) ≠ [] := by
    intro h
    have := coherentWords_length (splitSpace mutatedText) (splitSpace originalText)
    rw [h] at this
    exact splitSpace_ne_nil mutatedText (List.length_eq_zero.1 this.symm)
  exact splitSpace_joinSpace _ hne
    (coherentWords_no_space _ _ (splitSpace_no_space mutatedText)
      (splitSpace_no_space originalText))

/-! ## The coherence filter never adds differences -/

theorem coherentWords_getElem (ms os : List (List Char)) :
    ∀ (i : Nat) (m o : List Char), ms[i]? = some m → os[i]? = some o →
      (coherentWords ms os)[i]? =
        some (if exceedsHalf (calculateDifference m o) then repairedWord m o else m) := by
  induction ms generalizing os with
  | nil => intro i m o hm; simp at hm
  | cons m0 rest ih =>
    intro i m o hm ho
    cases os with
    | nil => simp at ho
    | cons o0 os =>
      cases i with
      | zero =>
        simp only [List.getElem?_cons_zero, Option.some.injEq] at hm ho
        subst hm ho
        simp [coherentWords, repairedWord]
      | succ j =>
        simp only [List.getElem?_cons_succ] at hm ho
        simpa [coherentWords] using ih os j m o hm ho

theorem coherentWords_getElem_beyond (ms os : List (List Char)) :
    ∀ i : Nat, os.length ≤ i → (coherentWords ms os)[i]? = ms[i]? := by
  induction ms generalizing os with
  | nil => intro i _; simp [coherentWords]
  | cons m0 rest ih =>
    intro i hi
    cases os with
    | nil => simp [coherentWords]
    | cons o0 os =>
      cases i with
      | zero => simp at hi
      | succ j =>
        have hj : os.length ≤ j := by simpa using hi
        simpa [coherentWords] using ih os j hj

theorem calculateDifference_cons_right (w : List Char) (c : Char) (cs : List Char) :
    calculateDifference w (c :: cs) =
      some ((diffCount w (c :: cs) : ℚ) / ((max w.length (cs.length + 1) : Nat) : ℚ)) := by
  have h : max w.length (cs.length + 1) ≠ 0 := by omega
  simp only [calculateDifference, List.length_cons, h, if_false]

theorem repairedWord_not_worse (m o : List Char) (ho : o ≠ []) :
    ∃ dOut dMut : ℚ, calculateDifference (repairedWord m o) o = some dOut ∧
      calculateDifference m o = some dMut ∧ dOut ≤ dMut := by
  cases o with
  | nil => exact absurd rfl ho
  | cons c cs =>
    refine ⟨_, _, calculateDifference_cons_right _ c cs, calculateDifference_cons_right _ c cs,
      ?_⟩
    cases m with
    | nil =>
      have h1 : diffCount (repairedWord [] (c :: cs)) (c :: cs) = cs.length := by
        simp [repairedWord, firstChar, jsToString, diffCount]
      have h2 : diffCount [] (c :: cs) = cs.length + 1 := by simp [diffCount]
      have h3 : (repairedWord [] (c :: cs)).length = 1 := by
        simp [repairedWord, firstChar, jsToString]
      rw [h1, h2, h3]
      have e1 : max 1 (cs.length + 1) = cs.length + 1 := by omega
      have e2 : max ([] : List Char).length (cs.length + 1) = cs.length + 1 := by simp
      rw [e1, e2]
      have hpos : (0 : ℚ) < ((cs.length + 1 : Nat) : ℚ) := by exact_mod_cast Nat.succ_pos _
      apply div_le_div_of_nonneg_right _ hpos.le
      exact_mod_cast Nat.le_succ _
    | cons a as =>
      have h1 : diffCount (repairedWord (a :: as) (c :: cs)) (c :: cs) = diffCount as cs := by
        simp [repairedWord, firstChar, jsToString, diffCount]
      have h2 : diffCount as cs ≤ diffCount (a :: as) (c :: cs) := by
        simp only [diffCount]
        omega
      have h3 : (repairedWord (a :: as) (c :: cs)).length = (a :: as).length := by
        simp [repairedWord, firstChar, jsToString]
      rw [h1, h3]
      apply div_le_div_of_nonneg_right _ (Nat.cast_nonneg _)
      exact_mod_cast h2

/-- Claim C23: when every original word at an index below both word counts is
non-empty, every word of `makeCoherent(mutated, original)` at such an index
has a difference from its original word that is at most the difference of the
mutated word; the output has as many words as the mutated text, and the words
at indices from the number of original words on are unchanged. -/
theorem makeCoherent_never_worse (mutated original : List Char)
    (hne : ∀ (i : Nat) (o : List Char), i < (splitSpace mutated).length →
      (splitSpace original)[i]? = some o → o ≠ []) :
    (splitSpace (makeCoherent mutated original)).length = (splitSpace mutated).length ∧
      (∀ (i : Nat) (m o : List Char), (splitSpace mutated)[i]? = some m →
        (splitSpace original)[i]? = some o →
        ∃ (out : List Char) (dOut dMut : ℚ),
          (splitSpace (makeCoherent mutated original))[i]? = some out ∧
          calculateDifference out o = some dOut ∧
          calculateDifference m o = some dMut ∧ dOut ≤ dMut) ∧
      (∀ i : Nat, min (splitSpace mutated).length (splitSpace original).length ≤ i →
        (splitSpace (makeCoherent mutated original))[i]? = (splitSpace mutated)[i]?) := by
  rw [splitSpace_makeCoherent]
  refine ⟨coherentWords_length _ _, ?_, ?_⟩
  swap
  · intro i hi
    rcases Nat.lt_or_ge i (splitSpace original).length with h | h
    swap
    · exact coherentWords_getElem_beyond _ _ i h
    · have h2 : (splitSpace mutated).length ≤ i := by
        rw [Nat.min_def] at hi
        split_ifs at hi <;> omega
      rw [List.getElem?_eq_none (by rw [coherentWords_length]; exact h2),
        List.getElem?_eq_none h2]
  intro i m o hm ho
  have hi : i < (splitSpace mutated).length := (List.getElem?_eq_some_iff.1 hm).1
  have hon : o ≠ [] := hne i o hi ho
  rw [coherentWords_getElem _ _ i m o hm ho]
  split_ifs
  · obtain ⟨dOut, dMut, h1, h2, h3⟩ := repairedWord_not_worse m o hon
    exact ⟨_, dOut, dMut, rfl, h1, h2, h3⟩
  · cases o with
    | nil => exact absurd rfl hon
    | cons c cs =>
      exact ⟨m, _, _, rfl, calculateDifference_cons_right m c cs,
        calculateDifference_cons_right m c cs, le_refl _⟩

/-- Witness of C23: the mutated text `xyz` against the original `abc`. -/
theorem makeCoherent_never_worse_witness :
    (∀ (i : Nat) (o : List Char), i < (splitSpace "xyz".toList).length →
        (splitSpace "abc".toList)[i]? = some o → o ≠ []) ∧
      (splitSpace (makeCoherent "xyz".toList "abc".toList)).length =
        (splitSpace "xyz".toList).length ∧
      (∀ (i : Nat) (m o : List Char), (splitSpace "xyz".toList)[i]? = some m →
        (splitSpace "abc".toList)[i]? = some o →
        ∃ (out : List Char) (dOut dMut : ℚ),
          (splitSpace (makeCoherent "xyz".toList "abc".toList))[i]? = some out ∧
          calculateDifference out o = some dOut ∧
          calculateDifference m o = some dMut ∧ dOut ≤ dMut) ∧
      (∀ i : Nat, min (splitSpace "xyz".toList).length (splitSpace "abc".toList).length ≤ i →
        (splitSpace (makeCoherent "xyz".toList "abc".toList))[i]? =
          (splitSpace "xyz".toList)[i]?) := by
  have h : ∀ (i : Nat) (o : List Char), i < (splitSpace "xyz".toList).length →
      (splitSpace "abc".toList)[i]? = some o → o ≠ [] := by
    have h2 : splitSpace "abc".toList = ["abc".toList] := by decide
    have h1 : (splitSpace "xyz".toList).length = 1 := by decide
    intro i o hi ho
    rw [h1] at hi
    have hi0 : i = 0 := by omega
    subst hi0
    rw [h2] at ho
    simp only [List.getElem?_cons_zero, Option.some.injEq] at ho
    subst ho
    decide
  exact ⟨h, makeCoherent_never_worse "xyz".toList "abc".toList h⟩

/-! ## The loop of the sentence mutator, word by word -/

theorem mutateSentenceLoop_cons (M : TransitionMatrix) (word : List Char)
    (rest : List (List Char)) (i : Nat) (st : SentenceState) (g : Rand) :
    mutateSentenceLoop M (word :: rest) i st g =
      mutateSentenceLoop M rest (i + 1) (mutateSentenceLoop M [word] i st g).1
        (mutateSentenceLoop M [word] i st g).2 := by
  simp only [mutateSentenceLoop]
  split_ifs <;> rfl

theorem mutateSentenceLoop_single (M : TransitionMatrix) (word : List Char) (i : Nat)
    (st : SentenceState) (g : Rand) :
    mutateSentenceLoop M [word] i st g =
      if st.inHaplotype = true ∧
          haplotypeList.any
            (fun h => h = (st.currentHaplotype ++ ' ' :: word).map toLowerCase) = true then
        ({ mutatedWords := st.mutatedWords ++
             [(mutateHaplotype M (st.currentHaplotype ++ ' ' :: word) g).1],
           silentMutation := st.silentMutation, inHaplotype := false, currentHaplotype := [] },
          (mutateHaplotype M (st.currentHaplotype ++ ' ' :: word) g).2)
      else if startsHaplotype word = true ∧ st.inHaplotype = false then
        ({ mutatedWords := st.mutatedWords, silentMutation := st.silentMutation,
           inHaplotype := true, currentHaplotype := word }, g)
      else
        ({ mutatedWords := st.mutatedWords ++ [(regularStep M word i g).1],
           silentMutation :=
             if (regularStep M word i g).2.head.val < 0.05 then true else st.silentMutation,
           inHaplotype := st.inHaplotype,
           currentHaplotype :=
             if st.inHaplotype then st.currentHaplotype ++ ' ' :: word
             else st.currentHaplotype },
          (regularStep M word i g).2.tail) := by
  cases hst : st.inHaplotype
  · simp only [mutateSentenceLoop, hst, Bool.false_eq_true, false_and, if_false, and_true,
      not_false_eq_true, startsHaplotype]
    rfl
  · simp only [mutateSentenceLoop, hst, true_and, if_true, not_true_eq_false, and_false,
      if_false, Bool.true_eq_false]
    rfl

theorem takesRegularPath_eq_true_iff (st : SentenceState) (word : List Char) :
    takesRegularPath st word = true ↔
      ¬ (st.inHaplotype = true ∧
          haplotypeList.any
            (fun h => h = (st.currentHaplotype ++ ' ' :: word).map toLowerCase) = true) ∧
        ¬ (startsHaplotype word = true ∧ st.inHaplotype = false) := by
  simp only [takesRegularPath, Bool.and_eq_true, Bool.not_eq_true', Bool.and_eq_false_iff,
    Bool.not_eq_false', not_and_or, Bool.not_eq_true, Bool.not_eq_false]

theorem mutateSentenceLoop_single_regular (M : TransitionMatrix) (word : List Char) (i : Nat)
    (st : SentenceState) (g : Rand) (h : takesRegularPath st word = true) :
    mutateSentenceLoop M [word] i st g =
      ({ mutatedWords := st.mutatedWords ++ [(regularStep M word i g).1],
         silentMutation :=
           if (regularStep M word i g).2.head.val < 0.05 then true else st.silentMutation,
         inHaplotype := st.inHaplotype,
         currentHaplotype :=
           if st.inHaplotype then st.currentHaplotype ++ ' ' :: word
           else st.currentHaplotype },
        (regularStep M word i g).2.tail) := by
  obtain ⟨c1, c2⟩ := (takesRegularPath_eq_true_iff st word).1 h
  rw [mutateSentenceLoop_single, if_neg c1, if_neg c2]

theorem mutateSentenceLoop_single_other (M : TransitionMatrix) (word : List Char) (i : Nat)
    (st : SentenceState) (g : Rand) (h : takesRegularPath st word = false) :
    (mutateSentenceLoop M [word] i st g).1.silentMutation = st.silentMutation := by
  rw [mutateSentenceLoop_single]
  by_cases c1 : st.inHaplotype = true ∧
      haplotypeList.any
        (fun h => h = (st.currentHaplotype ++ ' ' :: word).map toLowerCase) = true
  · rw [if_pos c1]
  · by_cases c2 : startsHaplotype word = true ∧ st.inHaplotype = false
    · rw [if_neg c1, if_pos c2]
    · have := (takesRegularPath_eq_true_iff st word).2 ⟨c1, c2⟩
      rw [h] at this
      exact Bool.noConfusion this

theorem silentMutation_iff (M : TransitionMatrix) (words : List (List Char)) :
    ∀ (i : Nat) (st : SentenceState) (g : Rand),
      (mutateSentenceLoop M words i st g).1.silentMutation = true ↔
        st.silentMutation = true ∨ ∃ d ∈ silentDraws M words i st g, d.val < 0.05 := by
  induction words with
  | nil =>
    intro i st g
    simp [mutateSentenceLoop, silentDraws]
  | cons word rest ih =>
    intro i st g
    rw [mutateSentenceLoop_cons, ih]
    by_cases h : takesRegularPath st word = true
    · simp only [silentDraws, h, if_true, List.mem_cons, exists_eq_or_imp]
      rw [mutateSentenceLoop_single_regular M word i st g h]
      by_cases hd : (regularStep M word i g).2.head.val < 0.05
      · simp [hd]
      · simp [hd]
    · have h' : takesRegularPath st word = false := by simpa using h
      simp only [silentDraws, h', Bool.false_eq_true, if_false]
      rw [mutateSentenceLoop_single_other M word i st g h']

/-! ## The exchange of two tokens -/

theorem swapAdjacent_eq (ws : List (List Char)) :
    ∀ pos : Nat, pos + 1 < ws.length →
      ∃ a b : List Char, ws[pos]? = some a ∧ ws[pos + 1]? = some b ∧
        swapAdjacent ws pos = ws.take pos ++ b :: a :: ws.drop (pos + 2) := by
  induction ws with
  | nil => intro pos h; simp at h
  | cons x rest ih =>
    intro pos h
    cases pos with
    | zero =>
      cases rest with
      | nil => simp at h
      | cons y rest2 => exact ⟨x, y, rfl, by simp, by simp [swapAdjacent]⟩
    | succ n =>
      have hn : n + 1 < rest.length := by simpa using h
      obtain ⟨a, b, ha, hb, heq⟩ := ih n hn
      refine ⟨a, b, by simpa using ha, by simpa using hb, ?_⟩
      simp only [swapAdjacent, heq, List.take_succ_cons, List.drop_succ_cons, List.cons_append]

theorem mutateSentence_eq (M : TransitionMatrix) (sentence : List Char) (g : Rand) :
    mutateSentence M sentence g =
      if (sentenceRun M sentence g).1.silentMutation = true ∧
          (sentenceRun M sentence g).1.mutatedWords.length > 2 then
        (joinSpace (swapAdjacent (sentenceRun M sentence g).1.mutatedWords
            ((sentenceRun M sentence g).2.head.index
              ((sentenceRun M sentence g).1.mutatedWords.length - 1))),
          (sentenceRun M sentence g).2.tail)
      else (joinSpace (sentenceRun M sentence g).1.mutatedWords, (sentenceRun M sentence g).2) :=
  rfl

/-- Claim C22: for every sentence and random source, the text that
`mutateSentence` returns is the sequence of mutated tokens joined by spaces,
either in their order or with the tokens of indices `pos` and `pos + 1`
exchanged, `pos` being the index drawn below the number of tokens minus one.
The exchange is made exactly when the flag `silentMutation` is set and there
are more than two tokens, and the flag is set exactly when the draw of some
word on the regular path is below 0.05. -/
theorem mutateSentence_single_exchange (M : TransitionMatrix) (sentence : List Char)
    (g : Rand) :
    ((sentenceRun M sentence g).1.silentMutation = true ↔
        ∃ d ∈ silentDraws M (splitSpace sentence) 0 SentenceState.initial g, d.val < 0.05) ∧
      ((sentenceRun M sentence g).1.silentMutation = true ∧
          2 < (sentenceRun M sentence g).1.mutatedWords.length →
        ∃ (pos : Nat) (a b : List Char),
          pos = (sentenceRun M sentence g).2.head.index
            ((sentenceRun M sentence g).1.mutatedWords.length - 1) ∧
          pos + 1 < (sentenceRun M sentence g).1.mutatedWords.length ∧
          (sentenceRun M sentence g).1.mutatedWords[pos]? = some a ∧
          (sentenceRun M sentence g).1.mutatedWords[pos + 1]? = some b ∧
          (mutateSentence M sentence g).1 =
            joinSpace ((sentenceRun M sentence g).1.mutatedWords.take pos ++
              b :: a :: (sentenceRun M sentence g).1.mutatedWords.drop (pos + 2))) ∧
      (¬ ((sentenceRun M sentence g).1.silentMutation = true ∧
          2 < (sentenceRun M sentence g).1.mutatedWords.length) →
        (mutateSentence M sentence g).1 =
          joinSpace (sentenceRun M sentence g).1.mutatedWords) := by
  refine ⟨?_, ?_, ?_⟩
  · have h := silentMutation_iff M (splitSpace sentence) 0 SentenceState.initial g
    simpa [sentenceRun, SentenceState.initial] using h
  · intro h
    have hlt : (sentenceRun M sentence g).2.head.index
        ((sentenceRun M sentence g).1.mutatedWords.length - 1) + 1 <
        (sentenceRun M sentence g).1.mutatedWords.length := by
      have := Draw.index_lt (sentenceRun M sentence g).2.head
        ((sentenceRun M sentence g).1.mutatedWords.length - 1) (by omega)
      omega
    obtain ⟨a, b, ha, hb, heq⟩ := swapAdjacent_eq _ _ hlt
    refine ⟨_, a, b, rfl, hlt, ha, hb, ?_⟩
    rw [mutateSentence_eq, if_pos h, heq]
  · intro h
    rw [mutateSentence_eq, if_neg h]

/-! ## The lengths of the words of a regular sentence -/

theorem applyIndel_deletion_spec (w : List Char) (p : Nat) (g : Rand) :
    (applyIndel w p "deletion" g).1.length = w.length - (if 2 < w.length then 1 else 0) ∧
      (w.count ' ' = 0 → (applyIndel w p "deletion" g).1.count ' ' = 0) := by
  by_cases h : 2 < w.length
  · have hlt : g.head.index w.length < w.length := Draw.index_lt _ _ (by omega)
    have heq : (applyIndel w p "deletion" g).1 = w.eraseIdx (g.head.index w.length) := by
      simp [applyIndel, h, List.eraseIdx_eq_take_drop_succ]
    rw [heq, List.length_eraseIdx, if_pos hlt, if_pos h]
    refine ⟨rfl, fun hc => ?_⟩
    rw [List.count_eq_zero] at hc ⊢
    exact fun hm => hc ((List.eraseIdx_sublist w _).subset hm)
  · have heq : (applyIndel w p "deletion" g).1 = w := by
      simp +decide [applyIndel, h]
    rw [heq, if_neg h]
    exact ⟨rfl, fun hc => hc⟩

theorem applyIndel_insertion_spec (w : List Char) (p : Nat) (g : Rand) :
    (applyIndel w p "insertion" g).1.length = w.length + 1 ∧
      (w.count ' ' = 0 → (applyIndel w p "insertion" g).1.count ' ' = 0) := by
  have hlt : g.head.index (w.length + 1) < w.length + 1 := Draw.index_lt _ _ (Nat.succ_pos _)
  obtain ⟨c, hc, hmem⟩ :=
    getLetterFromNucleotide_some (nucleotideAt (g.tail.head.index 4)) g.tail.tail
  have hcs : c ≠ ' ' := by
    rintro rfl
    exact absurd (nucleotideMap_subset_mapped _ _ hmem) (by decide)
  have heq : (applyIndel w p "insertion" g).1 =
      w.take (g.head.index (w.length + 1)) ++ c :: w.drop (g.head.index (w.length + 1)) := by
    simp +decide [applyIndel, hc, jsToString]
  rw [heq]
  constructor
  · simp only [List.length_append, List.length_cons, List.length_take, List.length_drop]
    omega
  · intro h0
    have h1 : (w.take (g.head.index (w.length + 1)) ++
        w.drop (g.head.index (w.length + 1))).count ' ' = 0 := by
      rw [List.take_append_drop]
      exact h0
    rw [List.count_append] at h1
    rw [List.count_append, List.count_cons, beq_eq_false_iff_ne.2 hcs]
    simpa using h1

theorem regularStep_spec (M : TransitionMatrix) (word : List Char) (i : Nat) (g : Rand) :
    (regularStep M word i g).1.length = scheduledLength i word.length ∧
      (word.count ' ' = 0 → (regularStep M word i g).1.count ' ' = 0) := by
  have hml : (mutateWord M word (decide ((i + 1) % 3 = 0)) g).1.length = word.length :=
    (mutateWordLoop_forall2 M _ word 0 g).length_eq.symm
  have hmc := mutateWord_count M word (decide ((i + 1) % 3 = 0)) g
  simp only [regularStep, scheduledLength]
  by_cases h5 : (i + 1) % 5 = 0 <;> by_cases h4 : (i + 1) % 4 = 0
  · simp only [h5, h4, if_true, true_and]
    obtain ⟨d1, d2⟩ := applyIndel_deletion_spec
      (mutateWord M word (decide ((i + 1) % 3 = 0)) g).1 i
      (mutateWord M word (decide ((i + 1) % 3 = 0)) g).2
    obtain ⟨n1, n2⟩ := applyIndel_insertion_spec
      (applyIndel (mutateWord M word (decide ((i + 1) % 3 = 0)) g).1 i "deletion"
        (mutateWord M word (decide ((i + 1) % 3 = 0)) g).2).1 i
      (applyIndel (mutateWord M word (decide ((i + 1) % 3 = 0)) g).1 i "deletion"
        (mutateWord M word (decide ((i + 1) % 3 = 0)) g).2).2
    rw [hml] at d1
    refine ⟨by rw [n1, d1], fun hc => n2 (d2 (by rw [hmc]; exact hc))⟩
  · simp only [h5, h4, if_true, if_false, true_and, Nat.add_zero]
    obtain ⟨d1, d2⟩ := applyIndel_deletion_spec
      (mutateWord M word (decide ((i + 1) % 3 = 0)) g).1 i
      (mutateWord M word (decide ((i + 1) % 3 = 0)) g).2
    rw [hml] at d1
    exact ⟨d1, fun hc => d2 (by rw [hmc]; exact hc)⟩
  · simp only [h5, h4, if_true, if_false, false_and, Nat.sub_zero]
    obtain ⟨n1, n2⟩ := applyIndel_insertion_spec
      (mutateWord M word (decide ((i + 1) % 3 = 0)) g).1 i
      (mutateWord M word (decide ((i + 1) % 3 = 0)) g).2
    rw [hml] at n1
    exact ⟨n1, fun hc => n2 (by rw [hmc]; exact hc)⟩
  · simp only [h5, h4, if_false, false_and, Nat.sub_zero, Nat.add_zero]
    exact ⟨hml, fun hc => by rw [hmc]; exact hc⟩

theorem mutateSentenceLoop_all_regular (M : TransitionMatrix) (words : List (List Char)) :
    ∀ (i : Nat) (st : SentenceState) (g : Rand), st.inHaplotype = false →
      (∀ w ∈ words, startsHaplotype w = false) →
      ∃ ts : List (List Char),
        (mutateSentenceLoop M words i st g).1.mutatedWords = st.mutatedWords ++ ts ∧
        ts.length = words.length ∧
        ∀ (j : Nat) (w : List Char), words[j]? = some w →
          ∃ o, ts[j]? = some o ∧ o.length = scheduledLength (i + j) w.length ∧
            (w.count ' ' = 0 → o.count ' ' = 0) := by
  induction words with
  | nil =>
    intro i st g _ _
    exact ⟨[], by simp [mutateSentenceLoop], rfl, fun j w h => by simp at h⟩
  | cons word rest ih =>
    intro i st g hst hw
    have hreg : takesRegularPath st word = true := by
      rw [takesRegularPath_eq_true_iff]
      constructor
      · rintro ⟨h1, _⟩
        rw [hst] at h1
        exact Bool.noConfusion h1
      · rintro ⟨h1, _⟩
        rw [hw word (List.mem_cons_self _ _)] at h1
        exact Bool.noConfusion h1
    rw [mutateSentenceLoop_cons, mutateSentenceLoop_single_regular M word i st g hreg]
    obtain ⟨ts, h1, h2, h3⟩ := ih (i + 1)
      { mutatedWords := st.mutatedWords ++ [(regularStep M word i g).1],
        silentMutation :=
          if (regularStep M word i g).2.head.val < 0.05 then true else st.silentMutation,
        inHaplotype := st.inHaplotype,
        currentHaplotype :=
          if st.inHaplotype then st.currentHaplotype ++ ' ' :: word
          else st.currentHaplotype }
      (regularStep M word i g).2.tail hst (fun w hm => hw w (List.mem_cons_of_mem _ hm))
    refine ⟨(regularStep M word i g).1 :: ts, ?_, by simp [h2], ?_⟩
    · rw [h1]
      simp
    · intro j w hj
      cases j with
      | zero =>
        simp only [List.getElem?_cons_zero, Option.some.injEq] at hj
        subst hj
        obtain ⟨s1, s2⟩ := regularStep_spec M word i g
        exact ⟨_, by simp, s1, s2⟩
      | succ k =>
        simp only [List.getElem?_cons_succ] at hj
        obtain ⟨o, ho, hl, hc⟩ := h3 k w hj
        refine ⟨o, by simpa using ho, ?_, hc⟩
        rw [hl]
        congr 1
        omega

/-- Claim C21: for every sentence none of whose words starts a haplotype
(is a prefix of a phrase, without regard to case) and every random source
with which the loop ends without the flag of a silent mutation,
`mutateSentence` returns as many words as the sentence has, and the word of
index `k` (from 0, so the claim's `k`-th word is the one of index `k - 1`) has
the length of the input word, minus 1 when `k + 1` is a multiple of 5 and the
word has more than two characters, plus 1 when `k + 1` is a multiple of 4. -/
theorem mutateSentence_scheduled_lengths (M : TransitionMatrix) (sentence : List Char)
    (g : Rand) (hpre : ∀ w ∈ splitSpace sentence, startsHaplotype w = false)
    (hsil : (sentenceRun M sentence g).1.silentMutation = false) :
    (splitSpace (mutateSentence M sentence g).1).length = (splitSpace sentence).length ∧
      ∀ (k : Nat) (w : List Char), (splitSpace sentence)[k]? = some w →
        ∃ o, (splitSpace (mutateSentence M sentence g).1)[k]? = some o ∧
          o.length =
            w.length - (if (k + 1) % 5 = 0 ∧ 2 < w.length then 1 else 0) +
              (if (k + 1) % 4 = 0 then 1 else 0) := by
  obtain ⟨ts, h1, h2, h3⟩ := mutateSentenceLoop_all_regular M (splitSpace sentence) 0
    SentenceState.initial g rfl hpre
  have htok : (sentenceRun M sentence g).1.mutatedWords = ts := by
    simpa [sentenceRun, SentenceState.initial] using h1
  have hne : ts ≠ [] := by
    intro h0
    rw [h0] at h2
    exact splitSpace_ne_nil sentence (List.length_eq_zero.1 h2.symm)
  have hcount : ∀ o ∈ ts, o.count ' ' = 0 := by
    intro o ho
    obtain ⟨j, hj, hget⟩ := List.getElem_of_mem ho
    have hj2 : j < (splitSpace sentence).length := by rw [← h2]; exact hj
    obtain ⟨o2, ho2, _, hc⟩ := h3 j ((splitSpace sentence)[j]) (List.getElem?_eq_getElem hj2)
    rw [List.getElem?_eq_getElem hj, Option.some.injEq] at ho2
    rw [← hget, ho2]
    exact hc (splitSpace_no_space sentence _ (List.getElem_mem _))
  have hout : (mutateSentence M sentence g).1 = joinSpace ts := by
    rw [mutateSentence_eq, if_neg (by rw [hsil]; simp), htok]
  rw [hout, splitSpace_joinSpace ts hne hcount]
  refine ⟨h2, ?_⟩
  intro k w hk
  obtain ⟨o, ho, hl, _⟩ := h3 k w hk
  refine ⟨o, ho, ?_⟩
  rw [hl, Nat.zero_add]
  rfl

theorem applyIndel_snd_const (w : List Char) (p : Nat) (type : String) (d : Draw) :
    (applyIndel w p type (Rand.const d)).2 = Rand.const d := by
  unfold applyIndel
  split_ifs <;> rfl

theorem regularStep_snd_const09 (word : List Char) (i : Nat) :
    (regularStep defaultMatrix word i (Rand.const draw09)).2 = Rand.const draw09 := by
  simp only [regularStep, mutateWord_const09]
  split_ifs <;> simp only [applyIndel_snd_const]

theorem mutateSentenceLoop_single_const09 (word : List Char) (i : Nat) (st : SentenceState) :
    (mutateSentenceLoop defaultMatrix [word] i st (Rand.const draw09)).2 = Rand.const draw09 ∧
      (mutateSentenceLoop defaultMatrix [word] i st (Rand.const draw09)).1.silentMutation =
        st.silentMutation := by
  rw [mutateSentenceLoop_single]
  by_cases c1 : st.inHaplotype = true ∧
      haplotypeList.any
        (fun h => h = (st.currentHaplotype ++ ' ' :: word).map toLowerCase) = true
  · rw [if_pos c1]
    exact ⟨by simp only [mutateHaplotype, mutateWords_const09], rfl⟩
  · by_cases c2 : startsHaplotype word = true ∧ st.inHaplotype = false
    · rw [if_neg c1, if_pos c2]
      exact ⟨rfl, rfl⟩
    · rw [if_neg c1, if_neg c2, regularStep_snd_const09]
      exact ⟨rfl, by simp only [not_silent_const09, if_false]⟩

theorem mutateSentenceLoop_const09 (words : List (List Char)) :
    ∀ (i : Nat) (st : SentenceState),
      (mutateSentenceLoop defaultMatrix words i st (Rand.const draw09)).2 =
          Rand.const draw09 ∧
        (mutateSentenceLoop defaultMatrix words i st (Rand.const draw09)).1.silentMutation =
          st.silentMutation := by
  induction words with
  | nil => intro i st; exact ⟨rfl, rfl⟩
  | cons word rest ih =>
    intro i st
    obtain ⟨h1, h2⟩ := mutateSentenceLoop_single_const09 word i st
    rw [mutateSentenceLoop_cons, h1]
    obtain ⟨h3, h4⟩ := ih (i + 1)
      (mutateSentenceLoop defaultMatrix [word] i st (Rand.const draw09)).1
    exact ⟨h3, h4.trans h2⟩

/-- Witness of C21: the sentence `we saw four green apples` with the default
matrix and all draws equal to 0.9. -/
theorem mutateSentence_scheduled_lengths_witness :
    (∀ w ∈ splitSpace "we saw four green apples".toList, startsHaplotype w = false) ∧
      (sentenceRun defaultMatrix "we saw four green apples".toList
        (Rand.const draw09)).1.silentMutation = false ∧
      (splitSpace (mutateSentence defaultMatrix "we saw four green apples".toList
          (Rand.const draw09)).1).length =
        (splitSpace "we saw four green apples".toList).length ∧
      ∀ (k : Nat) (w : List Char),
        (splitSpace "we saw four green apples".toList)[k]? = some w →
        ∃ o, (splitSpace (mutateSentence defaultMatrix "we saw four green apples".toList
            (Rand.const draw09)).1)[k]? = some o ∧
          o.length =
            w.length - (if (k + 1) % 5 = 0 ∧ 2 < w.length then 1 else 0) +
              (if (k + 1) % 4 = 0 then 1 else 0) :=
  have hpre : ∀ w ∈ splitSpace "we saw four green apples".toList,
      startsHaplotype w = false := by decide
  have hsil : (sentenceRun defaultMatrix "we saw four green apples".toList
      (Rand.const draw09)).1.silentMutation = false :=
    (mutateSentenceLoop_const09 _ 0 SentenceState.initial).2
  ⟨hpre, hsil,
    mutateSentence_scheduled_lengths defaultMatrix "we saw four green apples".toList
      (Rand.const draw09) hpre hsil⟩

/-! ## What the coherence filter guarantees -/

/-- Claim C18, amended: `makeCoherent` anchors the first character and does
not cap the difference.  When every original word at an index below both word
counts is non-empty, then at every such index either the difference of the
mutated word from its original word is at most 0.5 and the output word is the
mutated word, or that difference exceeds 0.5 and the output word is the
mutated word with its first character replaced by the first character of the
original word. -/
theorem makeCoherent_anchors_first_char (mutated original : List Char)
    (hne : ∀ (i : Nat) (o : List Char), i < (splitSpace mutated).length →
      (splitSpace original)[i]? = some o → o ≠ []) :
    ∀ (i : Nat) (m o : List Char), (splitSpace mutated)[i]? = some m →
      (splitSpace original)[i]? = some o →
      ∃ (out : List Char) (d : ℚ),
        (splitSpace (makeCoherent mutated original))[i]? = some out ∧
        calculateDifference m o = some d ∧
        ((d ≤ 1 / 2 ∧ out = m) ∨
          (1 / 2 < d ∧ out.head? = o.head? ∧ out.drop 1 = m.drop 1)) := by
  intro i m o hm ho
  have hi : i < (splitSpace mutated).length := (List.getElem?_eq_some_iff.1 hm).1
  have hon : o ≠ [] := hne i o hi ho
  rw [splitSpace_makeCoherent, coherentWords_getElem _ _ i m o hm ho]
  cases o with
  | nil => exact absurd rfl hon
  | cons c cs =>
    obtain ⟨q, hq⟩ : ∃ q, calculateDifference m (c :: cs) = some q :=
      ⟨_, calculateDifference_cons_right m c cs⟩
    refine ⟨_, q, rfl, hq, ?_⟩
    by_cases hex : exceedsHalf (calculateDifference m (c :: cs)) = true
    · right
      rw [if_pos hex]
      rw [hq] at hex
      simp only [exceedsHalf, gt_iff_lt, decide_eq_true_eq] at hex
      refine ⟨by norm_num at hex; linarith, ?_, ?_⟩
      · simp [repairedWord, firstChar, jsToString]
      · simp [repairedWord, firstChar, jsToString]
    · left
      rw [if_neg hex]
      rw [hq] at hex
      simp only [exceedsHalf, gt_iff_lt, decide_eq_true_eq, not_lt] at hex
      exact ⟨by norm_num at hex; linarith, rfl⟩

/-- Witness of the amended C18: the mutated text `xyz` against `abc`. -/
theorem makeCoherent_anchors_first_char_witness :
    (∀ (i : Nat) (o : List Char), i < (splitSpace "xyz".toList).length →
        (splitSpace "abc".toList)[i]? = some o → o ≠ []) ∧
      ∀ (i : Nat) (m o : List Char), (splitSpace "xyz".toList)[i]? = some m →
        (splitSpace "abc".toList)[i]? = some o →
        ∃ (out : List Char) (d : ℚ),
          (splitSpace (makeCoherent "xyz".toList "abc".toList))[i]? = some out ∧
          calculateDifference m o = some d ∧
          ((d ≤ 1 / 2 ∧ out = m) ∨
            (1 / 2 < d ∧ out.head? = o.head? ∧ out.drop 1 = m.drop 1)) := by
  have h : ∀ (i : Nat) (o : List Char), i < (splitSpace "xyz".toList).length →
      (splitSpace "abc".toList)[i]? = some o → o ≠ [] := by
    have h2 : splitSpace "abc".toList = ["abc".toList] := by decide
    have h1 : (splitSpace "xyz".toList).length = 1 := by decide
    intro i o hi ho
    rw [h1] at hi
    have hi0 : i = 0 := by omega
    subst hi0
    rw [h2] at ho
    simp only [List.getElem?_cons_zero, Option.some.injEq] at ho
    subst ho
    decide
  exact ⟨h, makeCoherent_anchors_first_char "xyz".toList "abc".toList h⟩

end GOCS
